import Mathlib

/-!
Verification of the bricklib argument-parsing engine.

This file gives a shallow embedding, in Lean 4, of the command-argument
parsing engine of the bricklib repository and proves properties of it.

Embedded source files:
* `src/sift/tokens.ts` — the `ArgTokenStream` class (token cursor with a
  snapshot stack).  `src/bricklib/args/parser.ts` imports `./tokens.js`,
  which is this same class.
* `src/bricklib/args/parser.ts` — the recursive-descent parse engine
  (`parseArg`, `parseLooseArgs`, `parseLongOption`, `parseShortOption`,
  `parseVerb`, `checkArgDefOrder`, `setVerbDefaults`, `parseSubVerb`,
  `isAllArgsOptional`).
* `src/bricklib/args/types.ts` — the built-in type parsers (`string`,
  `boolean`); the `number` parser uses JS `parseFloat` and is not needed
  by any theorem here.

Modelling conventions:
* JS values stored in a parse result are modelled by the inductive
  `Value` (JS `undefined`, numbers, strings, booleans, and nested result
  records).  Counters use `Int`, which is exact for the increments the
  engine performs.
* A JS thrown value is modelled by `PErr`: the engine throws plain
  strings (`userErr`) everywhere except `checkArgDefOrder`, which throws
  an `Error` object (`defErr`, the grammar-definition error).
* The mutable `ArgTokenStream` object is threaded explicitly: every
  engine function takes the stream and returns it together with its
  outcome (in JS the mutations performed before a `throw` persist, so
  the stream accompanies error outcomes as well).
* The mutable result object (`result[id] = v`) is threaded as an
  association list with in-place overwrite (`setR`); JS property lookup
  is `getR`.
* Verb definitions form an object graph in JS (`subcmds` holds object
  references, and `setVerbDefaults` keys its visited set on object
  identity).  The graph is embedded as an arena: a `Grammar` is a list
  of `CmdVerb` records and `subcmds` holds arena indices, so reference
  identity is index equality and cyclic graphs are representable.
* Type resolvers are host-supplied closures (`argDef.type`); they are
  embedded as an environment `env : Nat → TypeParser` indexed by the
  `type` field of an argument definition.  A resolver receives the
  argument definition and the stream, exactly as in
  `argDef.type(argDef, args)`.
* Recursion of the engine is not structurally bounded for arbitrary
  resolvers (a resolver may insert tokens), so the recursive engine
  functions take a fuel argument; `Outcome.out` marks fuel exhaustion
  and is a modelling artefact, never a behaviour of the source.
* JS string operations (`split`, `slice`, indexing) are modelled on the
  character list `String.data`; tokens in theorems are ASCII, where JS
  UTF-16 indexing and Lean character indexing agree.
-/

/-- A JS value as stored in a `ParseResult` record: `undefined`, a number,
a string, a boolean, or a nested result record. -/
inductive Value where
  | undef
  | num (n : Int)
  | str (s : String)
  | bool (b : Bool)
  | record (fields : List (String × Value))

/-- A thrown JS value: the engine throws strings (user-input errors) and,
in `checkArgDefOrder` only, an `Error` object (grammar-definition error). -/
inductive PErr where
  | userErr (msg : String)
  | defErr (msg : String)
deriving DecidableEq

/-! ## Token stream — `src/sift/tokens.ts`, class `ArgTokenStream` -/

/-- The `ArgTokenStream` class: a token array `_args`, a cursor `_pos`,
and a snapshot stack `_state` of saved `{pos, args}` copies.  The stack
is modelled with its top at the list head (the TS array pushes and pops
at the end). -/
structure ArgTokenStream where
  args : List String
  pos : Nat
  state : List (Nat × List String)

namespace ArgTokenStream

/-- `consume()`: advance the cursor unless it is already at the end. -/
def consume (s : ArgTokenStream) : ArgTokenStream :=
  if s.pos < s.args.length then { s with pos := s.pos + 1 } else s

/-- `insert(tok)`: `this._args.splice(this._pos, 0, tok)` — splice a new
token in at the cursor. -/
def insert (tok : String) (s : ArgTokenStream) : ArgTokenStream :=
  { s with args := s.args.take s.pos ++ tok :: s.args.drop s.pos }

/-- `current`: the token at the cursor, or `undefined` (`none`) past the
end. -/
def current (s : ArgTokenStream) : Option String :=
  s.args.get? s.pos

/-- `isEnd`: whether no tokens are left. -/
def isEnd (s : ArgTokenStream) : Bool :=
  s.args.length ≤ s.pos

/-- `push()`: push a copy of the cursor and the token array onto the
snapshot stack. -/
def push (s : ArgTokenStream) : ArgTokenStream :=
  { s with state := (s.pos, s.args) :: s.state }

/-- `complete()`: discard the top saved snapshot, keeping the current
state.  (On an empty stack the TS `Array.pop` is a no-op.) -/
def complete (s : ArgTokenStream) : ArgTokenStream :=
  { s with state := s.state.drop 1 }

/-- `pop()`: restore cursor and token array from the top saved snapshot
and discard it; a no-op when the stack is empty. -/
def pop (s : ArgTokenStream) : ArgTokenStream :=
  match s.state with
  | [] => s
  | (p, a) :: rest => { args := a, pos := p, state := rest }

end ArgTokenStream

/-- The operations a parse step may perform on the stream strictly
between a `push()` and its matching `pop()` in the rollback round-trip
law: consuming the current token and splicing a token in. -/
inductive StreamOp where
  | consume
  | insert (tok : String)

/-- Apply a sequence of stream operations in order. -/
def applyOps : List StreamOp → ArgTokenStream → ArgTokenStream
  | [], s => s
  | .consume :: ops, s => applyOps ops s.consume
  | .insert tok :: ops, s => applyOps ops (s.insert tok)

/-! ## Result record and error plumbing -/

/-- The `ParseResult` record: a JS object mapping identifiers to values,
modelled as an association list written through `setR` (in-place
overwrite, insertion order on first write). -/
abbrev ParseResult := List (String × Value)

/-- JS property read `result[id]`. -/
def getR : ParseResult → String → Option Value
  | [], _ => none
  | (k, v) :: r, id => if k = id then some v else getR r id

/-- JS property write `result[id] = v`: overwrite in place, append on
first write. -/
def setR : ParseResult → String → Value → ParseResult
  | [], id, v => [(id, v)]
  | (k, w) :: r, id, v => if k = id then (k, v) :: r else (k, w) :: setR r id v

/-- The occurrence-counter idiom
`if (typeof result[id] !== 'number') result[id] = 0; result[id]++;`. -/
def bumpCounter (result : ParseResult) (id : String) : ParseResult :=
  match getR result id with
  | some (.num n) => setR result id (.num (n + 1))
  | _ => setR result id (.num 1)

/-- Outcome of an engine step: a value, a thrown JS value, or exhausted
fuel (`out` is a modelling artefact, never a behaviour of the source). -/
inductive Outcome (α : Type) where
  | ok (a : α)
  | err (e : PErr)
  | out

/-- The engine monad: every step takes the mutable `ArgTokenStream` and
returns it alongside its outcome — in JS the stream mutations performed
before a `throw` persist and are visible to `catch` handlers. -/
def M (α : Type) := ArgTokenStream → Outcome α × ArgTokenStream

instance : Monad M where
  pure a := fun s => (.ok a, s)
  bind x f := fun s =>
    match x s with
    | (.ok a, s') => f a s'
    | (.err e, s') => (.err e, s')
    | (.out, s') => (.out, s')

/-- `throw e` in the engine. -/
def throwM {α : Type} (e : PErr) : M α := fun s => (.err e, s)

/-- Lift the stream methods into the engine monad. -/
def consumeM : M Unit := fun s => (.ok (), s.consume)

def insertM (tok : String) : M Unit := fun s => (.ok (), s.insert tok)

def pushM : M Unit := fun s => (.ok (), s.push)

def completeM : M Unit := fun s => (.ok (), s.complete)

def popM : M Unit := fun s => (.ok (), s.pop)

/-! ## Grammar model — `src/bricklib/args/defs.ts` -/

/-- A positional/option-argument definition (`CmdArgument`).  The `type`
field indexes the host-supplied resolver environment (in TS it holds the
resolver closure itself). -/
structure CmdArgument where
  id : String
  type : Nat
  optional : Bool
  default : Value

/-- A flag/option definition (`CmdOption`): long names, short
characters (`short` is a string of characters in TS), and the option's
own argument list. -/
structure CmdOption where
  id : String
  long : List String
  short : List Char
  args : List CmdArgument

/-- A command/sub-command definition (`CmdVerb`).  `subcmds` holds arena
indices into the enclosing `Grammar`, standing for the JS object
references; an empty `name` marks an unnamed verb. -/
structure CmdVerb where
  id : String
  name : String
  aliases : List String
  args : List CmdArgument
  options : List CmdOption
  subcmds : List Nat

/-- A grammar: the arena of verb definitions.  Index equality is JS
reference identity, and cyclic object graphs are representable. -/
abbrev Grammar := List CmdVerb

/-- Fallback for arena lookups.  A JS object reference always resolves,
so for grammars whose `subcmds` indices are in range this fallback is
never consulted. -/
def dummyVerb : CmdVerb := ⟨"", "", [], [], [], []⟩

/-- Follow a verb reference. -/
def fetchVerb (g : Grammar) (w : Nat) : CmdVerb := g.getD w dummyVerb

/-- A type resolver (`TypeParser<T>` in `defs.ts`): receives the
argument definition and the stream, returns a value or a thrown error,
and returns the stream it mutated (mutations persist even on failure). -/
def TypeParser := CmdArgument → ArgTokenStream → Except PErr Value × ArgTokenStream

/-- The resolver environment: interprets the `type` field of an
argument definition (in TS that field holds the closure directly). -/
abbrev TypeEnv := Nat → TypeParser

/-! ## Built-in type parsers — `src/bricklib/args/types.ts` -/

/-- `parsers.string`: read the current token, consume, return it
verbatim (JS returns `undefined` past the end of the stream). -/
def stringParser : TypeParser := fun _ s =>
  match s.current with
  | some arg => (.ok (.str arg), s.consume)
  | none => (.ok .undef, s.consume)

/-- `parsers.boolean`: read and consume the current token, accept only
the literals `true` and `false`. -/
def booleanParser : TypeParser := fun _ s =>
  match s.current with
  | some arg =>
    if arg = "true" then (.ok (.bool true), s.consume)
    else if arg = "false" then (.ok (.bool false), s.consume)
    else (.error (.userErr ("invalid boolean: " ++ arg)), s.consume)
  | none => (.error (.userErr "invalid boolean: undefined"), s.consume)

/-! ## Parse engine — `src/bricklib/args/parser.ts` -/

/-- `parseArg(argDef, args)`: fail at end of stream for a required
argument, otherwise delegate to the resolver `argDef.type(argDef, args)`. -/
def parseArg (env : TypeEnv) (argDef : CmdArgument) : M Value := fun s =>
  if s.isEnd && !argDef.optional then (.err (.userErr "Unexpected end of input"), s)
  else
    match env argDef.type argDef s with
    | (.ok v, s') => (.ok v, s')
    | (.error e, s') => (.err e, s')

/-- `checkArgDefOrder(argDef, endReqArgs)`: reject a required argument
after optional ones — the only place throwing an `Error` object — and
return the new `endReqArgs`. -/
def checkArgDefOrder (argDef : CmdArgument) (endReqArgs : Bool) : Except PErr Bool :=
  if !argDef.optional && endReqArgs then
    .error (.defErr "Parse definition error: Required arguments must not come after optional ones")
  else .ok argDef.optional

/-- The body of one `argDefs.forEach` iteration of `parseLooseArgs` in
the non-stopped state: `args.push(); result[id] = parseArg(...);
args.complete();`.  On failure the pushed snapshot is deliberately left
on the stack — the `catch` clause, not this block, decides whether to
`pop`. -/
def attemptOne (env : TypeEnv) (argDef : CmdArgument) (result : ParseResult) :
    M ParseResult := fun s =>
  match parseArg env argDef s.push with
  | (.ok v, s') => (.ok (setR result argDef.id v), s'.complete)
  | (.err e, s') => (.err e, s')
  | (.out, s') => (.out, s')

/-- The `argDefs.forEach((argDef, idx) => ...)` loop of
`parseLooseArgs`, carrying the element index `idx` and the `stopArgs`
flag. -/
def looseLoop (env : TypeEnv) (isAdj : Bool) :
    List CmdArgument → Nat → Bool → ParseResult → M ParseResult
  | [], _, _, result => pure result
  | argDef :: rest, idx, stopArgs, result =>
    if stopArgs then
      -- process optional args that did not match: bind the default,
      -- then the order check (which throws on a required definition)
      let result := setR result argDef.id argDef.default
      match checkArgDefOrder argDef true with
      | .error e => throwM e
      | .ok _ => looseLoop env isAdj rest (idx + 1) true result
    else fun s =>
      match attemptOne env argDef result s with
      | (.ok result', s') => looseLoop env isAdj rest (idx + 1) false result' s'
      | (.err e, s') =>
        if !argDef.optional || (isAdj && idx == 0) then (.err e, s')
        else looseLoop env isAdj rest (idx + 1) true result s'.pop
      | (.out, s') => (.out, s')

/-- `parseLooseArgs(argDefs, args, result, isAdj, name)`: parse the
argument list of an option.  The stream parameter is always present at
the call sites embedded here, so the TS initialisation
`let stopArgs = !args` yields `false`. -/
def parseLooseArgs (env : TypeEnv) (argDefs : List CmdArgument) (result : ParseResult)
    (isAdj : Bool) (name : String) : M ParseResult :=
  if argDefs.isEmpty && isAdj then
    throwM (.userErr ("Option " ++ name ++ " does not need any argument"))
  else
    looseLoop env isAdj argDefs 0 false result

/-- JS `str.split('=')` on character lists: split at every `=`, keeping
empty segments, always at least one segment. -/
def jsSplitEq : List Char → List (List Char)
  | [] => [[]]
  | c :: cs =>
    if c = '=' then [] :: jsSplitEq cs
    else
      match jsSplitEq cs with
      | [] => [[c]]
      | seg :: segs => (c :: seg) :: segs

/-- `parseLongOption(optDefs, args, result)`: handle a `--name[=value]`
token.  `const [optName, eqArg] = arg.slice(2).split('=')` destructures
only the first two `=`-separated segments. -/
def parseLongOption (env : TypeEnv) (optDefs : List CmdOption) (result : ParseResult) :
    M ParseResult := fun s =>
  match s.current with
  | none =>
    -- JS would raise a TypeError reading `startsWith` of undefined;
    -- unreachable: parseVerb routes only non-end tokens here.
    (.err (.defErr "TypeError: args.current is undefined"), s)
  | some arg =>
    match arg.data with
    | '-' :: '-' :: tail =>
      let s := s.consume
      let segs := jsSplitEq tail
      let optName : String := ⟨segs.headD []⟩
      match optDefs.find? (fun v => v.long.contains optName) with
      | none => (.err (.userErr ("Unrecognized flag: --" ++ optName)), s)
      | some optDef =>
        let s :=
          match segs.get? 1 with
          | some eqArg => s.insert ⟨eqArg⟩
          | none => s
        let result := bumpCounter result optDef.id
        parseLooseArgs env optDef.args result (segs.get? 1).isSome ("--" ++ optName) s
    | _ => (.ok result, s)   -- `if (!arg.startsWith('--')) return;`

/-- The character loop of `parseShortOption`
(`for (let i = 1; i < arg.length; i++)`): the list argument is the
characters from position `i` on, so `arg.slice(i+1)` is its tail. -/
def shortLoop (env : TypeEnv) (optDefs : List CmdOption) :
    List Char → ParseResult → M ParseResult
  | [], result => pure result
  | c :: rest, result =>
    match optDefs.find? (fun v => v.short.contains c) with
    | none => throwM (.userErr ("Unrecognized flag: -" ++ String.mk [c]))
    | some optDef =>
      let result := bumpCounter result optDef.id
      if optDef.args.isEmpty then
        shortLoop env optDefs rest result     -- flag-only option: continue
      else fun s =>
        -- handle -mVALUE: the remainder of the token becomes an
        -- inserted adjacent token, and the loop breaks
        let s := if rest.isEmpty then s else s.insert ⟨rest⟩
        parseLooseArgs env optDef.args result (!rest.isEmpty) ("-" ++ String.mk [c]) s

/-- `parseShortOption(optDefs, args, result)`: handle a `-abc` cluster
token. -/
def parseShortOption (env : TypeEnv) (optDefs : List CmdOption) (result : ParseResult) :
    M ParseResult := fun s =>
  match s.current with
  | none => (.err (.defErr "TypeError: args.current is undefined"), s)
  | some arg =>
    match arg.data with
    | '-' :: tail => shortLoop env optDefs tail result s.consume
    | _ => (.ok result, s)   -- `if (!arg.startsWith('-')) return;`

/-- `isAllArgsOptional(argDefs)`. -/
def isAllArgsOptional (argDefs : List CmdArgument) : Bool :=
  argDefs.all (fun d => d.optional)

/-- The positional-defaults `while` loop of `setVerbDefaults`, applied
to the argument definitions from `argIdx` on. -/
def argDefaults : List CmdArgument → ParseResult → Bool → Except PErr ParseResult
  | [], result, _ => .ok result
  | argDef :: rest, result, endReqArgs =>
    match checkArgDefOrder argDef endReqArgs with
    | .error e => .error e
    | .ok endReq' =>
      if !argDef.optional then .error (.userErr "Insufficient arguments")
      else argDefaults rest (setR result argDef.id argDef.default) endReq'

/-- The unnamed-sub-verb scan of `setVerbDefaults`: find the first
sub-verb with no name whose positional list is entirely optional,
recurse into it through `recur` unless it was already visited, then
break. -/
def subDefaults (g : Grammar) (recur : Nat → ParseResult → Outcome ParseResult) :
    List Nat → ParseResult → List Nat → Outcome ParseResult
  | [], result, _ => .ok result
  | w :: ws, result, processedSubs =>
    let verbDef := fetchVerb g w
    if !verbDef.name.isEmpty || !isAllArgsOptional verbDef.args then
      subDefaults g recur ws result processedSubs
    else if processedSubs.contains w then
      .ok result          -- already visited: break without recursing
    else
      recur w result      -- recurse, then break

/-- `setVerbDefaults(cmdDef, result, argIdx, doSubCmds, endReqArgs,
processedSubs)`: fill the defaults of the remaining positionals and of
the first all-optional unnamed sub-verb; the visited list guards the
recursion against cyclic grammars.  The fuel is a modelling artefact;
`setVerbDefaults_fuel_sufficient` below shows `g.length + 1` can never
run out. -/
def setVerbDefaults (g : Grammar) :
    Nat → Nat → ParseResult → Nat → Bool → Bool → List Nat → Outcome ParseResult
  | 0, _, _, _, _, _, _ => .out
  | fuel + 1, vIdx, result, argIdx, doSubCmds, endReqArgs, processedSubs =>
    let cmdDef := fetchVerb g vIdx
    let processedSubs := vIdx :: processedSubs
    match argDefaults (cmdDef.args.drop argIdx) result endReqArgs with
    | .error e => .err e
    | .ok result =>
      let afterSubs : Outcome ParseResult :=
        if doSubCmds && !cmdDef.subcmds.isEmpty then
          subDefaults g (fun w r => setVerbDefaults g fuel w r 0 true true processedSubs)
            cmdDef.subcmds result processedSubs
        else .ok result
      match afterSubs with
      | .ok result => .ok (setR result cmdDef.id (.bool true))
      | other => other

/-- Default argument-definition fallback for in-range list indexing. -/
def dummyArg : CmdArgument := ⟨"", 0, false, .undef⟩

/-- The unnamed-sub-verb trial loop of `parseSubVerb`: each candidate is
attempted under `args.push()`; success is committed with
`args.complete()`; failure is rolled back with `args.pop()` and the
first error is remembered (`if (!err) err = e`).  `attempt` is
`parseVerb` at the enclosing fuel. -/
def trialLoop (g : Grammar) (attempt : Nat → List CmdOption → M ParseResult)
    (result : ParseResult) (upOpts : List CmdOption) :
    List Nat → Option PErr → M ParseResult
  | [], firstErr =>
    match firstErr with
    | some e => throwM e
    -- `throw err` with `err` still undefined: unreachable, the loop is
    -- entered only with at least one candidate
    | none => throwM (.userErr "undefined")
  | w :: ws, firstErr => fun s =>
    match attempt w upOpts s.push with
    | (.ok sub, s') => (.ok (setR result (fetchVerb g w).id (.record sub)), s'.complete)
    | (.err e, s') =>
      trialLoop g attempt result upOpts ws (firstErr <|> some e) s'.pop
    | (.out, s') => (.out, s')

/-- The candidate scan of `parseSubVerb`: collect unnamed sub-verbs in
declaration order, dispatch on the first named sub-verb whose name or
alias matches (recursing with an empty inherited option list), and after
the scan either raise `Unknown subcommand` or run the trial loop. -/
def subScan (g : Grammar) (attempt : Nat → List CmdOption → M ParseResult)
    (name : String) (result : ParseResult) (upOpts : List CmdOption) :
    List Nat → List Nat → M ParseResult
  | [], unAcc =>
    let unNamedSubs := unAcc.reverse
    if unNamedSubs.isEmpty then
      throwM (.userErr ("Unknown subcommand: " ++ name))
    else
      trialLoop g attempt result upOpts unNamedSubs none
  | w :: ws, unAcc =>
    let verbDef := fetchVerb g w
    if verbDef.name.isEmpty then
      subScan g attempt name result upOpts ws (w :: unAcc)
    else if verbDef.name != name && !verbDef.aliases.contains name then
      subScan g attempt name result upOpts ws unAcc
    else fun s =>
      -- exact match found: consume the name token and recurse
      match attempt w [] s.consume with
      | (.ok sub, s') => (.ok (setR result verbDef.id (.record sub)), s')
      | (.err e, s') => (.err e, s')
      | (.out, s') => (.out, s')

mutual

/-- `parseVerb(cmdDef, args, upOpts)`: parse one verb — options,
positionals, sub-verbs — into a freshly created result record, then run
the defaulting pass and bind the verb's own id to `true`.
`setVerbDefaults` receives fuel `g.length + 1`, which
`setVerbDefaults_fuel_sufficient` proves can never run out. -/
def parseVerb (env : TypeEnv) (g : Grammar) :
    Nat → Nat → List CmdOption → M ParseResult
  | 0, _, _ => fun s => (.out, s)
  | fuel + 1, vIdx, upOpts => fun s =>
    let cmdDef := fetchVerb g vIdx
    let upOpts := upOpts ++ cmdDef.options
    match verbLoop env g fuel vIdx upOpts [] 0 false false false s with
    | (.ok (result, argIdx, hasSubCmd, endReqArgs), s') =>
      match setVerbDefaults g (g.length + 1) vIdx result argIdx (!hasSubCmd) endReqArgs [] with
      | .ok result => (.ok (setR result cmdDef.id (.bool true)), s')
      | .err e => (.err e, s')
      | .out => (.out, s')
    | (.err e, s') => (.err e, s')
    | (.out, s') => (.out, s')

/-- The `while (args && !args.isEnd)` loop of `parseVerb`, carrying the
loop state `(result, argIdx, hasSubCmd, stopOpts, endReqArgs)` and
returning everything the defaulting pass needs. -/
def verbLoop (env : TypeEnv) (g : Grammar) :
    Nat → Nat → List CmdOption → ParseResult → Nat → Bool → Bool → Bool →
    M (ParseResult × Nat × Bool × Bool)
  | 0, _, _, _, _, _, _, _ => fun s => (.out, s)
  | fuel + 1, vIdx, upOpts, result, argIdx, hasSubCmd, stopOpts, endReqArgs => fun s =>
    let cmdDef := fetchVerb g vIdx
    match s.current with
    | none => (.ok (result, argIdx, hasSubCmd, endReqArgs), s)   -- !args.isEnd fails
    | some arg =>
      if arg.data.head? = some '-' && !stopOpts then
        -- a short option
        if arg.data.get? 1 != some '-' then
          match parseShortOption env upOpts result s with
          | (.ok result', s') =>
            verbLoop env g fuel vIdx upOpts result' argIdx hasSubCmd stopOpts endReqArgs s'
          | (.err e, s') => (.err e, s')
          | (.out, s') => (.out, s')
        -- double-dash (--)
        else if arg.length == 2 then
          verbLoop env g fuel vIdx upOpts result argIdx hasSubCmd true endReqArgs s.consume
        else
          match parseLongOption env upOpts result s with
          | (.ok result', s') =>
            verbLoop env g fuel vIdx upOpts result' argIdx hasSubCmd stopOpts endReqArgs s'
          | (.err e, s') => (.err e, s')
          | (.out, s') => (.out, s')
      -- parse positional parameters
      else if argIdx < cmdDef.args.length then
        let argDef := cmdDef.args.getD argIdx dummyArg
        match checkArgDefOrder argDef endReqArgs with
        | .error e => (.err e, s)
        | .ok endReq' =>
          match parseArg env argDef s with
          | (.ok v, s') =>
            verbLoop env g fuel vIdx upOpts (setR result argDef.id v) (argIdx + 1)
              hasSubCmd stopOpts endReq' s'
          | (.err e, s') => (.err e, s')
          | (.out, s') => (.out, s')
      -- process subcmds
      else if !cmdDef.subcmds.isEmpty then
        match parseSubVerb env g fuel cmdDef.subcmds result upOpts s with
        | (.ok result', s') => (.ok (result', argIdx, true, endReqArgs), s')   -- break
        | (.err e, s') => (.err e, s')
        | (.out, s') => (.out, s')
      else (.err (.userErr ("Too many arguments: " ++ arg)), s)

/-- `parseSubVerb(cmdDefs, args, result, upOpts)`: sub-verb resolution —
named match first, then trial parsing of the unnamed candidates.  (The
JS coercion of an undefined `args.current` to the text `undefined` in
the error message is modelled by `getD`; parseVerb only calls this with
tokens remaining.) -/
def parseSubVerb (env : TypeEnv) (g : Grammar) :
    Nat → List Nat → ParseResult → List CmdOption → M ParseResult
  | 0, _, _, _ => fun s => (.out, s)
  | fuel + 1, cmdDefs, result, upOpts => fun s =>
    let name := s.current.getD "undefined"
    subScan g (fun w up => parseVerb env g fuel w up) name result upOpts cmdDefs [] s

end

/-- `parseCommand(def, args)` from `src/bricklib/args.ts`: build a fresh
stream and parse from the root verb. -/
def mkStream (args : List String) : ArgTokenStream := ⟨args, 0, []⟩

/-- Run a whole parse; the root verb is given by its arena index. -/
def parseCommand (env : TypeEnv) (g : Grammar) (fuel : Nat) (vIdx : Nat)
    (args : List String) : Outcome ParseResult × ArgTokenStream :=
  parseVerb env g fuel vIdx [] (mkStream args)

/-! ## Cycle guard of the defaulting pass (C8) -/

/-- A grammar whose verb references all resolve inside the arena — the
shape every JS grammar object graph has, since object references cannot
dangle. -/
def closedGrammar (g : Grammar) : Prop :=
  ∀ v ∈ g, ∀ w ∈ v.subcmds, w < g.length

instance (g : Grammar) : Decidable (closedGrammar g) := by
  unfold closedGrammar; infer_instance

/-- The number of verb definitions not yet in the visited set: the
quantity that bounds the recursion depth of `setVerbDefaults`. -/
def unvisitedCount (g : Grammar) (vs : List Nat) : Nat :=
  (List.range g.length).countP (fun i => !vs.contains i)

/-- A deliberately cyclic two-verb grammar (each verb is the other's
sub-verb): the shape the cycle guard exists for. -/
def gCyclic : Grammar :=
  [⟨"a", "", [], [], [], [1]⟩, ⟨"b", "", [], [], [], [0]⟩]

/-! ## Spec description of the option-argument pass (for C4) -/

/-- The defaults tail of the spec description of `parseLooseArgs`
(§4.3): after the first optional argument fails, each remaining
argument receives its declared default — amended by the observed code
behaviour that a required definition in this tail raises the
grammar-order error (its default having just been bound), since the
stopped branch runs `checkArgDefOrder(argDef, true)`. -/
def specDefaultsTail : List CmdArgument → ParseResult → M ParseResult
  | [], result => pure result
  | argDef :: rest, result =>
    let result := setR result argDef.id argDef.default
    if !argDef.optional then
      throwM (.defErr "Parse definition error: Required arguments must not come after optional ones")
    else specDefaultsTail rest result

/-- The spec description of the `parseLooseArgs` loop, amended by the
counterexample: arguments are processed in declared order; every
attempt runs under a stream snapshot committed on success; a failure of
a required argument — or of the first argument under adjacency — is
propagated (the implementation leaves its snapshot on the stack, which
this description mirrors); the first failing optional argument is
rolled back, receives no binding, and every argument after it falls to
`specDefaultsTail`. -/
def specLooseGo (env : TypeEnv) (isAdj : Bool) :
    List CmdArgument → Bool → ParseResult → M ParseResult
  | [], _, result => pure result
  | argDef :: rest, first, result => fun s =>
    match parseArg env argDef s.push with
    | (.ok v, s') => specLooseGo env isAdj rest false (setR result argDef.id v) s'.complete
    | (.err e, s') =>
      if !argDef.optional || (isAdj && first) then (.err e, s')
      else specDefaultsTail rest result s'.pop
    | (.out, s') => (.out, s')

/-- The spec description of `parseLooseArgs` (amended): an adjacent
value supplied to an option declaring no arguments is a hard error;
otherwise the recursion above. -/
def parseLooseArgsSpec (env : TypeEnv) (argDefs : List CmdArgument) (result : ParseResult)
    (isAdj : Bool) (name : String) : M ParseResult :=
  if argDefs.isEmpty && isAdj then
    throwM (.userErr ("Option " ++ name ++ " does not need any argument"))
  else specLooseGo env isAdj argDefs true result

/-- A concrete resolver environment for witnesses: slot 1 is the
built-in boolean parser, every other slot the built-in string parser. -/
def testEnv : TypeEnv := fun n => if n = 1 then booleanParser else stringParser

/-- Option-argument list for the C4 counterexample: an optional boolean
argument (which fails on the token `zzz`) followed by an optional
string argument. -/
def cArgsC4 : List CmdArgument :=
  [⟨"oa", 1, true, .bool false⟩, ⟨"ob", 0, true, .str "d"⟩]

/-- Grammar for the C7 counterexample: one verb with an optional string
positional (default `"d"`) followed by a required one — the
grammar-order defect. -/
def gOrd : Grammar :=
  [⟨"v", "v", [], [⟨"a", 0, true, .str "d"⟩, ⟨"b", 0, false, .undef⟩], [], []⟩]

/-- Option list for the C9 counterexample: long option `--opt` with one
required string argument. -/
def optDefsC9 : List CmdOption := [⟨"o", ["opt"], [], [⟨"val", 0, false, .undef⟩]⟩]

/-- Grammar for the C3 snapshot-leak scenario.  Root verb `root` has two
unnamed sub-verbs: `A` takes one required string positional and an
option `-x` with a required boolean argument; `B` takes two required
string positionals and a flag-only option `-x`. -/
def gBug : Grammar :=
  [⟨"root", "root", [], [], [], [1, 2]⟩,
   ⟨"A", "", [], [⟨"pa", 0, false, .undef⟩],
     [⟨"x", [], ['x'], [⟨"bv", 1, false, .undef⟩]⟩], []⟩,
   ⟨"B", "", [], [⟨"pb", 0, false, .undef⟩, ⟨"pq", 0, false, .undef⟩],
     [⟨"x2", [], ['x'], []⟩], []⟩]

/-- Grammar with a named sub-verb `add` and an unnamed sub-verb taking
one required boolean positional (spec §8, scenario 4). -/
def gSub : Grammar :=
  [⟨"v", "v", [], [], [], [1, 2]⟩,
   ⟨"add", "add", [], [], [], []⟩,
   ⟨"u", "", [], [⟨"f", 1, false, .undef⟩], [], []⟩]

/-- Binding preservation between result records: every id bound in `r`
is still bound (possibly to a new value) in the second record — the
engine only ever writes through `setR`, never deletes. -/
def keepsBindings (r r' : ParseResult) : Prop :=
  ∀ id, (getR r id).isSome = true → (getR r' id).isSome = true

/-- Grammar of spec §8 scenario 1: verb `mv` with required string
positionals `src` and `dst`. -/
def gMv : Grammar :=
  [⟨"mv", "mv", [], [⟨"src", 0, false, .undef⟩, ⟨"dst", 0, false, .undef⟩], [], []⟩]

/-- Grammar for the C2 counterexample: a verb declaring one long option
`--opt` (with a required string argument) that the input never
supplies. -/
def gC2 : Grammar :=
  [⟨"v", "v", [], [], [⟨"o", ["opt"], [], [⟨"val", 0, false, .undef⟩]⟩], []⟩]

/-! ## Observational stream equivalence (for the C5/C6 laws) -/

/-- The tokens at and after the cursor — all a spec §4.2 Type Resolver
may depend on. -/
def remOf (s : ArgTokenStream) : List String := s.args.drop s.pos

/-- The remaining-token views of the saved snapshots. -/
def savedRems (s : ArgTokenStream) : List (List String) :=
  s.state.map (fun p => p.2.drop p.1)

/-- Cursor well-formedness (spec §3: the cursor is always in
`[0, length]`), for the live state and every saved snapshot. -/
def WFStream (s : ArgTokenStream) : Prop :=
  s.pos ≤ s.args.length ∧ ∀ p ∈ s.state, p.1 ≤ p.2.length

/-- Observational equivalence: two well-formed streams that agree on
the remaining tokens and on each saved snapshot up to its consumed
prefix.  The attached (`--opt=value`) and split (`--opt value`)
spellings necessarily differ in the already-consumed tokens, so "the
same final token stream state" of the laws is read through this
relation. -/
def StreamEquiv (s t : ArgTokenStream) : Prop :=
  WFStream s ∧ WFStream t ∧ remOf s = remOf t ∧ savedRems s = savedRems t

/-- A resolver that depends only on the not-yet-consumed part of the
stream: the formalisation of a spec §4.2 Type Resolver ("pure
functions converting the current token(s) into a typed value").  On
equivalent streams it yields the same value or error and equivalent
streams. -/
def SuffixInv (p : TypeParser) : Prop :=
  ∀ d s t, StreamEquiv s t →
    match p d s, p d t with
    | (.ok v, s'), (.ok w, t') => v = w ∧ StreamEquiv s' t'
    | (.error e, s'), (.error f, t') => e = f ∧ StreamEquiv s' t'
    | _, _ => False

/-- Every resolver of the environment is a spec §4.2 resolver. -/
def EnvSuffixInv (env : TypeEnv) : Prop := ∀ n, SuffixInv (env n)

/-- Equivalence of engine-step results: equal outcomes on equivalent
streams. -/
def MEquiv {α : Type} (x y : Outcome α × ArgTokenStream) : Prop :=
  match x, y with
  | (.ok v, s'), (.ok w, t') => v = w ∧ StreamEquiv s' t'
  | (.err e, s'), (.err f, t') => e = f ∧ StreamEquiv s' t'
  | (.out, s'), (.out, t') => StreamEquiv s' t'
  | _, _ => False

/-- Bump the occurrence counters of a sequence of flag-only short
options, in order (the effect of the leading flag characters of a
short cluster). -/
def bumpFlags (optDefs : List CmdOption) (r : ParseResult) (cs : List Char) : ParseResult :=
  cs.foldl
    (fun acc x =>
      match optDefs.find? (fun v => v.short.contains x) with
      | some o => bumpCounter acc o.id
      | none => acc) r

/-- Run `parseShortOption` on `n` successive tokens, stopping at the
first error — the "parsing `-a -b -c`" side of the short-cluster law. -/
def runShortTokens (env : TypeEnv) (optDefs : List CmdOption) :
    Nat → ParseResult → M ParseResult
  | 0, r => fun s => (.ok r, s)
  | n + 1, r => fun s =>
    match parseShortOption env optDefs r s with
    | (.ok r', s') => runShortTokens env optDefs n r' s'
    | other => other

/-- Iterated `consume`. -/
def consumeN : Nat → ArgTokenStream → ArgTokenStream
  | 0, s => s
  | n + 1, s => consumeN n s.consume

/-- Option list for the C5 counterexample: a long option `--flag`
declaring no arguments. -/
def optDefsFlag : List CmdOption := [⟨"flag", ["flag"], [], []⟩]

/-- Options for the C6 witness: flag-only `-a`, `-b` and an
argument-taking `-c`. -/
def optDefsClus : List CmdOption :=
  [⟨"a", [], ['a'], []⟩, ⟨"b", [], ['b'], []⟩,
   ⟨"c", [], ['c'], [⟨"cv", 0, false, .undef⟩]⟩]

/-- Option list for the C5 witness: long option `--lv` with one
required string argument. -/
def optDefsLv : List CmdOption := [⟨"level", ["lv"], [], [⟨"n", 0, false, .undef⟩]⟩]

/-! ### End of definitions (more definitions are appended above this line) -/

/-! ## Theorems -/

/-! ## Basic lemmas about the result record -/

theorem getR_setR_self (r : ParseResult) (id : String) (v : Value) :
    getR (setR r id v) id = some v := by
  induction r with
  | nil => simp [setR, getR]
  | cons kv r ih =>
    obtain ⟨k, w⟩ := kv
    by_cases h : k = id <;> simp [setR, getR, h, ih]

theorem getR_setR_ne (r : ParseResult) (id k : String) (v : Value) (h : k ≠ id) :
    getR (setR r id v) k = getR r k := by
  have hik : ¬ id = k := fun hh => h hh.symm
  induction r with
  | nil => simp [setR, getR, hik]
  | cons kv r ih =>
    obtain ⟨k', w⟩ := kv
    by_cases h' : k' = id
    · subst h'
      simp [setR, getR, hik]
    · simp only [setR, getR, if_neg h']
      by_cases h'' : k' = k <;> simp [getR, h'', ih]

theorem isSome_getR_setR (r : ParseResult) (id k : String) (v : Value)
    (h : (getR r k).isSome) : (getR (setR r id v) k).isSome := by
  by_cases hk : k = id
  · subst hk; simp [getR_setR_self]
  · rwa [getR_setR_ne r id k v hk]

theorem isSome_getR_bumpCounter (r : ParseResult) (id k : String)
    (h : (getR r k).isSome) : (getR (bumpCounter r id) k).isSome := by
  unfold bumpCounter
  cases getR r id with
  | none => exact isSome_getR_setR r id k _ h
  | some w => cases w <;> exact isSome_getR_setR r id k _ h

theorem countP_mono_of_imp (l : List Nat) (p q : Nat → Bool)
    (h : ∀ x ∈ l, p x = true → q x = true) : l.countP p ≤ l.countP q := by
  induction l with
  | nil => simp
  | cons x l ih =>
    simp only [List.countP_cons]
    have htail := ih (fun y hy => h y (List.mem_cons_of_mem x hy))
    have hhead : (if p x = true then 1 else 0) ≤ (if q x = true then 1 else 0) := by
      by_cases hpx : p x = true
      · rw [if_pos hpx, if_pos (h x (List.mem_cons_self x l) hpx)]
      · rw [if_neg hpx]
        split <;> omega
    omega

theorem countP_strict_of_witness (l : List Nat) (p q : Nat → Bool)
    (h : ∀ x ∈ l, p x = true → q x = true)
    (w : Nat) (hw : w ∈ l) (hq : q w = true) (hp : p w = false) :
    l.countP p < l.countP q := by
  induction l with
  | nil => cases hw
  | cons x l ih =>
    simp only [List.countP_cons]
    have htail := countP_mono_of_imp l p q (fun y hy => h y (List.mem_cons_of_mem x hy))
    by_cases hx : x = w
    · subst hx
      rw [hp, hq, if_neg (by decide), if_pos rfl]
      omega
    · have hmem : w ∈ l := by
        rcases List.mem_cons.mp hw with h' | h'
        · exact absurd h'.symm hx
        · exact h'
      have hlt := ih (fun y hy => h y (List.mem_cons_of_mem x hy)) hmem
      have hhead : (if p x = true then 1 else 0) ≤ (if q x = true then 1 else 0) := by
        by_cases hpx : p x = true
        · rw [if_pos hpx, if_pos (h x (List.mem_cons_self x l) hpx)]
        · rw [if_neg hpx]
          split <;> omega
      omega

theorem countP_contains_strict (l : List Nat) (vs : List Nat) (w : Nat)
    (hw : w ∈ l) (hvs : vs.contains w = false) :
    l.countP (fun i => !(w :: vs).contains i) < l.countP (fun i => !vs.contains i) := by
  apply countP_strict_of_witness
  · intro x _ hx
    simp only [Bool.not_eq_true'] at hx ⊢
    simp only [List.contains_cons, Bool.or_eq_false_iff] at hx
    exact hx.2
  · exact hw
  · simp only [Bool.not_eq_true']
    exact hvs
  · simp

theorem fetchVerb_of_ge (g : Grammar) (w : Nat) (h : g.length ≤ w) :
    fetchVerb g w = dummyVerb := by
  unfold fetchVerb List.getD
  rw [List.get?_eq_none.mpr h]
  rfl

theorem fetchVerb_mem (g : Grammar) (w : Nat) (h : w < g.length) :
    fetchVerb g w ∈ g := by
  unfold fetchVerb
  rw [List.getD_eq_getElem g dummyVerb h]
  exact List.getElem_mem h

/-- If the sub-verb scan of the defaulting pass runs out of fuel, it did
so inside a recursive call on an unvisited candidate. -/
theorem subDefaults_out (g : Grammar) (recur : Nat → ParseResult → Outcome ParseResult)
    (ws : List Nat) (r : ParseResult) (vs : List Nat)
    (h : subDefaults g recur ws r vs = .out) :
    ∃ w ∈ ws, vs.contains w = false ∧ ∃ r', recur w r' = .out := by
  induction ws generalizing r with
  | nil => simp [subDefaults] at h
  | cons w ws ih =>
    unfold subDefaults at h
    simp only [] at h
    split at h
    · obtain ⟨w', hw', hc, hr⟩ := ih r h
      exact ⟨w', List.mem_cons_of_mem w hw', hc, hr⟩
    · split at h
      · cases h
      · rename_i hcont
        exact ⟨w, List.mem_cons_self w ws, by simpa using hcont, r, h⟩

/-- Fuel-sufficiency of the defaulting pass: with more fuel than there
are unvisited verb definitions, `setVerbDefaults` cannot run out —
the visited set prevents revisiting any verb definition, so the
recursion depth is bounded by the number of distinct reachable verbs. -/
theorem setVerbDefaults_fuel_sufficient (g : Grammar) (hg : closedGrammar g) :
    ∀ fuel vIdx result argIdx doSubCmds endReqArgs processedSubs,
      unvisitedCount g (vIdx :: processedSubs) < fuel →
      setVerbDefaults g fuel vIdx result argIdx doSubCmds endReqArgs processedSubs ≠ .out := by
  intro fuel
  induction fuel with
  | zero => intro _ _ _ _ _ _ h; omega
  | succ fuel ih =>
    intro vIdx result argIdx doSubCmds endReqArgs processedSubs hcount hout
    unfold setVerbDefaults at hout
    simp only [] at hout
    split at hout
    · cases hout
    · rename_i result' _
      split at hout
      · rename_i hok
        cases hout
      · -- the sub-verb scan, or nothing, produced the final outcome `.out`
        split at hout
        · rename_i hcond
          obtain ⟨w, hw, hcont, r', hrec⟩ := subDefaults_out _ _ _ _ _ hout
          -- `w` is a genuine arena index: the current verb has a
          -- nonempty subcmds list, so it is a real grammar member
          have hvalid : w < g.length := by
            by_cases hv : vIdx < g.length
            · exact hg _ (fetchVerb_mem g vIdx hv) w hw
            · rw [fetchVerb_of_ge g vIdx (by omega)] at hw
              cases hw
          have hdec : unvisitedCount g (w :: vIdx :: processedSubs) <
              unvisitedCount g (vIdx :: processedSubs) :=
            countP_contains_strict _ _ _ (List.mem_range.mpr hvalid) hcont
          exact ih w r' 0 true true (vIdx :: processedSubs) (by omega) hrec
        · cases hout


/-- `consume` and `insert` never touch the snapshot stack, so a sequence
of them leaves `_state` unchanged. -/
theorem applyOps_state (ops : List StreamOp) (s : ArgTokenStream) :
    (applyOps ops s).state = s.state := by
  induction ops generalizing s with
  | nil => rfl
  | cons op ops ih =>
    cases op with
    | consume =>
      show (applyOps ops s.consume).state = s.state
      rw [ih]
      unfold ArgTokenStream.consume
      split <;> rfl
    | insert tok =>
      show (applyOps ops (s.insert tok)).state = s.state
      rw [ih]
      rfl

/-- C1 — Token Stream rollback round-trip: for every stream state and
every sequence of `consume`/`insert` operations performed between a
snapshot (`push`) and its matching rollback (`pop`), the rollback
restores the stream — cursor position, token sequence and the rest of
the snapshot stack — to exactly its value at the moment of the snapshot,
undoing in particular any tokens spliced in by `insert`. -/
theorem tokenStream_rollback_roundtrip (s : ArgTokenStream) (ops : List StreamOp) :
    (applyOps ops s.push).pop = s := by
  have hstate : (applyOps ops s.push).state = (s.pos, s.args) :: s.state :=
    applyOps_state ops s.push
  unfold ArgTokenStream.pop
  rw [hstate]

/-- C8 — Cycle-guard termination: for every grammar graph, including
accidentally cyclic ones (any graph whose verb references resolve inside
the arena, as JS object references always do), the default-propagation
pass run with fuel `g.length + 1` cannot exhaust it: the visited set of
verb definitions threaded through the recursion prevents revisiting any
verb definition, bounding the recursion by the number of distinct verb
definitions. -/
theorem setVerbDefaults_cycle_guard (g : Grammar) (hg : closedGrammar g)
    (vIdx : Nat) (result : ParseResult) (argIdx : Nat) (doSubCmds endReqArgs : Bool) :
    setVerbDefaults g (g.length + 1) vIdx result argIdx doSubCmds endReqArgs [] ≠ .out := by
  apply setVerbDefaults_fuel_sufficient g hg
  have h1 := List.countP_le_length (p := fun i => !([vIdx].contains i)) (l := List.range g.length)
  have h2 := List.length_range g.length
  unfold unvisitedCount
  omega

/-- Witness for the cycle-guard theorem at the concrete cyclic grammar
`gCyclic`. -/
theorem setVerbDefaults_cycle_guard_witness :
    closedGrammar gCyclic ∧
      setVerbDefaults gCyclic (gCyclic.length + 1) 0 [] 0 true true [] ≠ .out :=
  ⟨by decide, setVerbDefaults_cycle_guard gCyclic (by decide) 0 [] 0 true true⟩

/-! ## C4 — the option-argument pass -/

theorem looseLoop_stopped_eq_tail (env : TypeEnv) (isAdj : Bool)
    (ds : List CmdArgument) (idx : Nat) (r : ParseResult) :
    looseLoop env isAdj ds idx true r = specDefaultsTail ds r := by
  induction ds generalizing idx r with
  | nil => rfl
  | cons d ds ih =>
    cases hopt : d.optional with
    | false => simp [looseLoop, specDefaultsTail, checkArgDefOrder, hopt, throwM]
    | true =>
      have hih := ih (idx + 1) (setR r d.id d.default)
      simp [looseLoop, specDefaultsTail, checkArgDefOrder, hopt, hih]

theorem looseLoop_eq_specGo (env : TypeEnv) (isAdj : Bool)
    (ds : List CmdArgument) (idx : Nat) (r : ParseResult) (s : ArgTokenStream) :
    looseLoop env isAdj ds idx false r s = specLooseGo env isAdj ds (idx == 0) r s := by
  induction ds generalizing idx r s with
  | nil => rfl
  | cons d ds ih =>
    simp only [looseLoop, specLooseGo, Bool.false_eq_true, if_false]
    unfold attemptOne
    rcases h : parseArg env d s.push with ⟨o, s'⟩
    cases o with
    | ok v =>
      have hih := ih (idx + 1) (setR r d.id v) s'.complete
      have h10 : ((idx + 1 : Nat) == 0) = false := by simp
      rw [h10] at hih
      simp only [h, hih]
    | err e =>
      by_cases hcond : (!d.optional || (isAdj && idx == 0) : Bool) = true
      · simp [h, hcond]
      · have htail := congrFun (looseLoop_stopped_eq_tail env isAdj ds (idx + 1) r) s'.pop
        simp only [Bool.not_eq_true] at hcond
        simp [h, hcond, htail]
    | out => simp [h]

theorem parseLooseArgs_eq_spec_pointwise (env : TypeEnv) (argDefs : List CmdArgument)
    (result : ParseResult) (isAdj : Bool) (name : String) (s : ArgTokenStream) :
    parseLooseArgs env argDefs result isAdj name s =
      parseLooseArgsSpec env argDefs result isAdj name s := by
  unfold parseLooseArgs parseLooseArgsSpec
  split
  · rfl
  · exact looseLoop_eq_specGo env isAdj argDefs 0 result s

/-- C4 (counterexample) — the claim states that the first optional
argument whose parse fails is itself bound to its declared default.  In
the code it is not: with an optional boolean argument `oa`
(default `false`) failing on token `zzz` and an optional string
argument `ob` (default `"d"`) after it, the returned record binds `ob`
but leaves `oa` entirely unbound, and the stream is rolled back. -/
theorem parseLooseArgs_failed_optional_not_defaulted :
    parseLooseArgs testEnv cArgsC4 [] false "--o" (mkStream ["zzz", "w"]) =
      (.ok [("ob", Value.str "d")], ⟨["zzz", "w"], 0, []⟩) ∧
    getR [("ob", Value.str "d")] "oa" = none := by
  exact ⟨rfl, rfl⟩

/-- C4 (amended) — in `parseLooseArgs` the argument definitions are
processed in declared order; every attempt runs under a stream snapshot
committed on success; a required argument failure (or a failure of the
first argument under adjacency) propagates to the caller; on the first
optional argument whose parse fails the stream is rolled back, no
further parse attempts are made, the failed argument is left unbound,
and every remaining argument is bound to its declared default (a
required definition among the remainder raising the grammar-order
error after its default is bound): the implementation agrees with this
description, `parseLooseArgsSpec`, at every input. -/
theorem parseLooseArgs_matches_spec_description (env : TypeEnv)
    (argDefs : List CmdArgument) (result : ParseResult) (isAdj : Bool)
    (name : String) (s : ArgTokenStream) :
    parseLooseArgs env argDefs result isAdj name s =
      parseLooseArgsSpec env argDefs result isAdj name s :=
  parseLooseArgs_eq_spec_pointwise env argDefs result isAdj name s

/-! ## C7 — the grammar-order law -/

theorem argDefaults_req_after_optional (breq : CmdArgument) (rest : List CmdArgument)
    (hreq : breq.optional = false) :
    ∀ (xs : List CmdArgument), (∀ x ∈ xs, x.optional = true) → ∀ (r : ParseResult),
      argDefaults (xs ++ breq :: rest) r true =
        .error (.defErr "Parse definition error: Required arguments must not come after optional ones") := by
  intro xs
  induction xs with
  | nil =>
    intro _ r
    simp [argDefaults, checkArgDefOrder, hreq]
  | cons x xs ih =>
    intro hxs r
    have hx := hxs x (List.mem_cons_self x xs)
    simp only [List.cons_append, argDefaults, checkArgDefOrder, hx]
    simpa using ih (fun y hy => hxs y (List.mem_cons_of_mem x hy)) (setR r x.id x.default)

theorem argDefaults_violation (xs : List CmdArgument) (breq : CmdArgument)
    (rest : List CmdArgument) (r : ParseResult) (hne : xs ≠ [])
    (hxs : ∀ x ∈ xs, x.optional = true) (hreq : breq.optional = false) :
    argDefaults (xs ++ breq :: rest) r false =
      .error (.defErr "Parse definition error: Required arguments must not come after optional ones") := by
  cases xs with
  | nil => exact absurd rfl hne
  | cons x xs =>
    have hx := hxs x (List.mem_cons_self x xs)
    simp only [List.cons_append, argDefaults, checkArgDefOrder, hx]
    simpa using argDefaults_req_after_optional breq rest hreq xs
      (fun y hy => hxs y (List.mem_cons_of_mem x hy)) (setR r x.id x.default)

theorem current_eq_none_of_isEnd (s : ArgTokenStream) (h : s.isEnd = true) :
    s.current = none := by
  unfold ArgTokenStream.current
  apply List.get?_eq_none.mpr
  simpa [ArgTokenStream.isEnd] using h

/-- C7 (counterexample) — the claim states the grammar-order error is
raised before consuming any input token.  On the grammar `gOrd`
(optional positional before a required one) with input
`["t1", "t2"]`, the error is raised only after the optional positional
has consumed `t1`: the final cursor is 1, not the initial 0. -/
theorem grammar_order_error_after_consuming :
    parseVerb testEnv gOrd 10 0 [] (mkStream ["t1", "t2"]) =
      (.err (.defErr "Parse definition error: Required arguments must not come after optional ones"),
       ⟨["t1", "t2"], 1, []⟩) ∧
    (⟨["t1", "t2"], 1, []⟩ : ArgTokenStream).pos ≠ 0 :=
  ⟨rfl, by decide⟩

/-- C7 (amended) — a grammar declaring a required positional after an
optional one raises the GrammarDefinitionError when the parser reaches
the offending definition; tokens bound to the earlier positionals may
already have been consumed.  In particular, whenever the stream is
already exhausted (so no token can be consumed at all) and every
positional before the offending required one is optional, `parseVerb`
raises the grammar-definition error and returns the stream untouched. -/
theorem grammar_order_error_on_exhausted_stream (env : TypeEnv) (g : Grammar)
    (fuel vIdx : Nat) (upOpts : List CmdOption) (s : ArgTokenStream)
    (xs : List CmdArgument) (breq : CmdArgument) (rest : List CmdArgument)
    (hend : s.isEnd = true)
    (hargs : (fetchVerb g vIdx).args = xs ++ breq :: rest)
    (hxs : ∀ x ∈ xs, x.optional = true) (hne : xs ≠ [])
    (hreq : breq.optional = false) :
    parseVerb env g (fuel + 2) vIdx upOpts s =
      (.err (.defErr "Parse definition error: Required arguments must not come after optional ones"), s) := by
  have hcur := current_eq_none_of_isEnd s hend
  have hviol := argDefaults_violation xs breq rest [] hne hxs hreq
  unfold parseVerb verbLoop
  rw [hcur]
  unfold setVerbDefaults
  simp only [List.drop_zero, hargs, hviol]

/-- Witness for the amended grammar-order theorem at the concrete
grammar `gOrd` and the empty stream. -/
theorem grammar_order_error_on_exhausted_stream_witness :
    (mkStream []).isEnd = true ∧
    (fetchVerb gOrd 0).args =
      [(⟨"a", 0, true, .str "d"⟩ : CmdArgument)] ++ (⟨"b", 0, false, .undef⟩ : CmdArgument) :: [] ∧
    parseVerb testEnv gOrd 10 0 [] (mkStream []) =
      (.err (.defErr "Parse definition error: Required arguments must not come after optional ones"),
       mkStream []) :=
  ⟨rfl, rfl,
    grammar_order_error_on_exhausted_stream testEnv gOrd 8 0 [] (mkStream [])
      [⟨"a", 0, true, .str "d"⟩] ⟨"b", 0, false, .undef⟩ [] rfl rfl
      (by decide) (by simp) rfl⟩

/-! ## C9 — long-option splitting -/

theorem jsSplitEq_ne_nil (cs : List Char) : jsSplitEq cs ≠ [] := by
  induction cs with
  | nil => simp [jsSplitEq]
  | cons c cs ih =>
    unfold jsSplitEq
    by_cases hc : c = '='
    · simp [hc]
    · simp only [if_neg hc]
      cases h : jsSplitEq cs with
      | nil => simp
      | cons seg segs => simp

theorem headD_jsSplitEq (cs : List Char) :
    (jsSplitEq cs).headD [] = cs.takeWhile (fun c => c ≠ '=') := by
  induction cs with
  | nil => simp [jsSplitEq]
  | cons c cs ih =>
    unfold jsSplitEq
    by_cases hc : c = '='
    · simp [hc, List.takeWhile_cons]
    · simp only [if_neg hc]
      cases h : jsSplitEq cs with
      | nil => exact absurd h (jsSplitEq_ne_nil cs)
      | cons seg segs =>
        rw [h] at ih
        simp only [List.headD_cons] at ih
        simp [List.takeWhile_cons, hc, ih]

theorem jsSplitEq_cons_of_mem (cs : List Char) (hmem : '=' ∈ cs) :
    jsSplitEq cs =
      cs.takeWhile (fun c => c ≠ '=') ::
        jsSplitEq ((cs.dropWhile (fun c => c ≠ '=')).drop 1) := by
  induction cs with
  | nil => cases hmem
  | cons c cs ih =>
    by_cases hc : c = '='
    · subst hc
      rfl
    · have hmem' : '=' ∈ cs := by
        rcases List.mem_cons.mp hmem with h | h
        · exact absurd h.symm hc
        · exact h
      have ihh := ih hmem'
      rw [List.takeWhile_cons_of_pos (by simpa using hc),
        List.dropWhile_cons_of_pos (by simpa using hc)]
      conv_lhs => rw [jsSplitEq.eq_def]
      simp only [if_neg hc, ihh]

/-- C9 (counterexample) — the claim states the entire text after the
first `=` (including further `=` characters) is inserted as one token.
For the token `--opt=a=b` the destructuring drops everything from the
second `=` on: the option argument receives the value `a`, not `a=b`. -/
theorem parseLongOption_drops_second_eq_segment :
    (parseLongOption testEnv optDefsC9 [] (mkStream ["--opt=a=b"])).fst =
      .ok [("o", Value.num 1), ("val", Value.str "a")] ∧
    getR [("o", Value.num 1), ("val", Value.str "a")] "val" = some (.str "a") ∧
    (some (Value.str "a") ≠ some (Value.str "a=b")) :=
  ⟨rfl, rfl, by simp⟩

/-- C9 (amended) — for a long-option token containing `=`: the option
name is exactly the text before the first `=`, looked up by exact name
match among the declared long names; an unknown name raises an error
naming the flag (after the token is consumed); and for a known option
the text strictly between the first `=` and the following `=` (not the
entire remainder — see the counterexample) is inserted back into the
stream as one single token, the occurrence counter is bumped, and the
argument pass runs with adjacency set true. -/
theorem parseLongOption_split_behaviour (env : TypeEnv) (optDefs : List CmdOption)
    (r : ParseResult) (s : ArgTokenStream) (t : String) (cs : List Char)
    (hcur : s.current = some t) (hdata : t.data = '-' :: '-' :: cs)
    (hmem : '=' ∈ cs) :
    (optDefs.find? (fun v => v.long.contains (⟨cs.takeWhile (fun c => c ≠ '=')⟩ : String)) = none →
      parseLongOption env optDefs r s =
        (.err (.userErr ("Unrecognized flag: --" ++
          (⟨cs.takeWhile (fun c => c ≠ '=')⟩ : String))), s.consume)) ∧
    (∀ optDef,
      optDefs.find? (fun v => v.long.contains (⟨cs.takeWhile (fun c => c ≠ '=')⟩ : String)) = some optDef →
      parseLongOption env optDefs r s =
        parseLooseArgs env optDef.args (bumpCounter r optDef.id) true
          ("--" ++ (⟨cs.takeWhile (fun c => c ≠ '=')⟩ : String))
          ((s.consume).insert
            ⟨((cs.dropWhile (fun c => c ≠ '=')).drop 1).takeWhile (fun c => c ≠ '=')⟩)) := by
  have hsplit := jsSplitEq_cons_of_mem cs hmem
  have hrest := headD_jsSplitEq ((cs.dropWhile (fun c => c ≠ '=')).drop 1)
  have hrestne := jsSplitEq_ne_nil ((cs.dropWhile (fun c => c ≠ '=')).drop 1)
  constructor
  · intro hfind
    unfold parseLongOption
    rw [hcur]
    simp only [hdata, hsplit, List.headD_cons, hfind]
  · intro optDef hfind
    unfold parseLongOption
    rw [hcur]
    simp only [hdata, hsplit, List.headD_cons, hfind]
    cases hr : jsSplitEq ((cs.dropWhile (fun c => c ≠ '=')).drop 1) with
    | nil => exact absurd hr hrestne
    | cons seg segs =>
      rw [hr] at hrest
      simp only [List.headD_cons] at hrest
      simp [hrest]

/-- Witness for the amended long-option splitting theorem on the
concrete token `--opt=a=b`. -/
theorem parseLongOption_split_behaviour_witness :
    (mkStream ["--opt=a=b"]).current = some "--opt=a=b" ∧
    ("--opt=a=b" : String).data = '-' :: '-' :: ("opt=a=b" : String).data ∧
    '=' ∈ ("opt=a=b" : String).data ∧
    parseLongOption testEnv optDefsC9 [] (mkStream ["--opt=a=b"]) =
      parseLooseArgs testEnv [⟨"val", 0, false, .undef⟩] (bumpCounter [] "o") true
        ("--" ++ (⟨("opt=a=b" : String).data.takeWhile (fun c => c ≠ '=')⟩ : String))
        (((mkStream ["--opt=a=b"]).consume).insert
          ⟨((("opt=a=b" : String).data.dropWhile (fun c => c ≠ '=')).drop 1).takeWhile (fun c => c ≠ '=')⟩) :=
  ⟨rfl, by decide, by decide,
    (parseLongOption_split_behaviour testEnv optDefsC9 [] (mkStream ["--opt=a=b"])
        "--opt=a=b" ("opt=a=b" : String).data rfl (by decide) (by decide)).2
      ⟨"o", ["opt"], [], [⟨"val", 0, false, .undef⟩]⟩ rfl⟩

/-! ## C3 — unnamed sub-verb trials and the snapshot leak -/

/-- C3 (code-bug evidence) — on input `["v", "-x", "bad"]` against
`gBug`, trial `A` fails inside the required boolean argument of its
option `-x`; the rethrow in `parseLooseArgs` skips `args.pop()`, so the
snapshot pushed for that argument is left on the stack and the trial
rollback in `parseSubVerb` restores that mid-trial state (cursor 2)
instead of the pre-trial state (cursor 0).  Trial `B` therefore runs on
a corrupted stream and fails, and the whole parse errors with a leaked
snapshot left on the stack — although `B` run alone on the pristine
remaining input succeeds, so by the spec's unnamed-sub-verb law the
parse should have committed `B`'s result. -/
theorem parseSubVerb_trial_snapshot_leak :
    parseVerb testEnv gBug 20 0 [] (mkStream ["v", "-x", "bad"]) =
      (.err (.userErr "invalid boolean: bad"),
       ⟨["v", "-x", "bad"], 2, [(0, ["v", "-x", "bad"])]⟩) ∧
    parseVerb testEnv gBug 20 2 [] (mkStream ["v", "-x", "bad"]) =
      (.ok [("pb", Value.str "v"), ("x2", Value.num 1), ("pq", Value.str "bad"),
            ("B", Value.bool true)],
       ⟨["v", "-x", "bad"], 3, []⟩) :=
  ⟨rfl, rfl⟩

/-! ## C10 — trial-failure atomicity of the result record -/

theorem trialLoop_ok_shape (g : Grammar) (attempt : Nat → List CmdOption → M ParseResult)
    (result : ParseResult) (upOpts : List CmdOption) (ws : List Nat)
    (firstErr : Option PErr) (s s' : ArgTokenStream) (r' : ParseResult)
    (h : trialLoop g attempt result upOpts ws firstErr s = (.ok r', s')) :
    ∃ w ∈ ws, ∃ sub, r' = setR result (fetchVerb g w).id (.record sub) := by
  induction ws generalizing firstErr s with
  | nil =>
    unfold trialLoop at h
    cases firstErr <;> simp [throwM] at h
  | cons w ws ih =>
    unfold trialLoop at h
    rcases ha : attempt w upOpts s.push with ⟨o, t⟩
    rw [ha] at h
    cases o with
    | ok sub =>
      simp only [Prod.mk.injEq, Outcome.ok.injEq] at h
      exact ⟨w, List.mem_cons_self w ws, sub, h.1.symm⟩
    | err e =>
      obtain ⟨w', hw', sub, hsub⟩ := ih _ _ h
      exact ⟨w', List.mem_cons_of_mem w hw', sub, hsub⟩
    | out => simp at h

theorem subScan_ok_shape (g : Grammar) (attempt : Nat → List CmdOption → M ParseResult)
    (name : String) (result : ParseResult) (upOpts : List CmdOption)
    (cmds unAcc : List Nat) (s s' : ArgTokenStream) (r' : ParseResult)
    (h : subScan g attempt name result upOpts cmds unAcc s = (.ok r', s')) :
    ∃ w, (w ∈ cmds ∨ w ∈ unAcc) ∧ ∃ sub, r' = setR result (fetchVerb g w).id (.record sub) := by
  induction cmds generalizing unAcc s with
  | nil =>
    unfold subScan at h
    simp only [] at h
    split at h
    · simp [throwM] at h
    · obtain ⟨w, hw, sub, hsub⟩ := trialLoop_ok_shape _ _ _ _ _ _ _ _ _ h
      exact ⟨w, Or.inr (by simpa using List.mem_reverse.mp hw), sub, hsub⟩
  | cons w ws ih =>
    unfold subScan at h
    simp only [] at h
    split at h
    · obtain ⟨w', hw', sub, hsub⟩ := ih _ _ h
      rcases hw' with hmem | hmem
      · exact ⟨w', Or.inl (List.mem_cons_of_mem w hmem), sub, hsub⟩
      · rcases List.mem_cons.mp hmem with heq | hmem'
        · exact ⟨w', Or.inl (heq ▸ List.mem_cons_self w ws), sub, hsub⟩
        · exact ⟨w', Or.inr hmem', sub, hsub⟩
    · split at h
      · obtain ⟨w', hw', sub, hsub⟩ := ih _ _ h
        rcases hw' with hmem | hmem
        · exact ⟨w', Or.inl (List.mem_cons_of_mem w hmem), sub, hsub⟩
        · exact ⟨w', Or.inr hmem, sub, hsub⟩
      · simp only [] at h
        rcases ha : attempt w [] s.consume with ⟨o, t⟩
        rw [ha] at h
        cases o with
        | ok sub =>
          simp only [Prod.mk.injEq, Outcome.ok.injEq] at h
          exact ⟨w, Or.inl (List.mem_cons_self w ws), sub, h.1.symm⟩
        | err e => simp at h
        | out => simp at h

/-- C10 — trial-failure atomicity of the Result Record: whatever
`parseSubVerb` does — named dispatch or unnamed trial parsing — a
successful return changes the parent record by exactly one binding: the
id of the sub-verb that was committed, bound to its freshly built
nested record.  Every binding under any other id is untouched; in
particular no binding of a failed trial candidate (its own id, its
positionals, options or counters) ever reaches the parent record,
because each `parseVerb` invocation accumulates into a freshly created
record that is discarded when it throws — in JS the only write to the
parent record is the assignment performed after a candidate returns,
which is also why this embedding can thread the record functionally. -/
theorem parseSubVerb_result_atomicity (env : TypeEnv) (g : Grammar) (fuel : Nat)
    (cmds : List Nat) (result : ParseResult) (upOpts : List CmdOption)
    (s s' : ArgTokenStream) (r' : ParseResult)
    (h : parseSubVerb env g fuel cmds result upOpts s = (.ok r', s')) :
    ∃ w ∈ cmds, ∃ sub,
      r' = setR result (fetchVerb g w).id (.record sub) ∧
      ∀ id, id ≠ (fetchVerb g w).id → getR r' id = getR result id := by
  cases fuel with
  | zero => simp [parseSubVerb] at h
  | succ fuel =>
    unfold parseSubVerb at h
    obtain ⟨w, hw, sub, hsub⟩ := subScan_ok_shape _ _ _ _ _ _ _ _ _ _ h
    rcases hw with hmem | hmem
    · exact ⟨w, hmem, sub, hsub, fun id hid =>
        hsub ▸ getR_setR_ne result (fetchVerb g w).id id (.record sub) hid⟩
    · cases hmem

/-- Witness for the atomicity theorem: a concrete `parseSubVerb` run on
`gSub` with a pre-populated parent record adds exactly the one binding
for the committed unnamed sub-verb `u`. -/
theorem parseSubVerb_result_atomicity_witness :
    parseSubVerb testEnv gSub 10 [1, 2] [("pre", Value.num 7)] [] (mkStream ["true"]) =
      (.ok [("pre", Value.num 7),
            ("u", Value.record [("f", Value.bool true), ("u", Value.bool true)])],
       ⟨["true"], 1, []⟩) ∧
    ∃ w ∈ [1, 2], ∃ sub,
      [("pre", Value.num 7),
       ("u", Value.record [("f", Value.bool true), ("u", Value.bool true)])] =
        setR [("pre", Value.num 7)] (fetchVerb gSub w).id (.record sub) ∧
      ∀ id, id ≠ (fetchVerb gSub w).id →
        getR [("pre", Value.num 7),
              ("u", Value.record [("f", Value.bool true), ("u", Value.bool true)])] id =
          getR [("pre", Value.num 7)] id :=
  ⟨rfl,
    parseSubVerb_result_atomicity testEnv gSub 10 [1, 2] [("pre", Value.num 7)] []
      (mkStream ["true"]) ⟨["true"], 1, []⟩
      [("pre", Value.num 7),
       ("u", Value.record [("f", Value.bool true), ("u", Value.bool true)])] rfl⟩

/-! ## C2 — binding-preservation machinery -/

theorem keepsBindings_refl (r : ParseResult) : keepsBindings r r := fun _ h => h

theorem keepsBindings_trans {a b c : ParseResult}
    (h1 : keepsBindings a b) (h2 : keepsBindings b c) : keepsBindings a c :=
  fun id h => h2 id (h1 id h)

theorem keepsBindings_setR (r : ParseResult) (id : String) (v : Value) :
    keepsBindings r (setR r id v) :=
  fun k h => isSome_getR_setR r id k v h

theorem keepsBindings_bumpCounter (r : ParseResult) (id : String) :
    keepsBindings r (bumpCounter r id) :=
  fun k h => isSome_getR_bumpCounter r id k h

theorem attemptOne_ok_shape (env : TypeEnv) (d : CmdArgument) (r : ParseResult)
    (s t : ArgTokenStream) (r1 : ParseResult)
    (h : attemptOne env d r s = (.ok r1, t)) : ∃ v, r1 = setR r d.id v := by
  unfold attemptOne at h
  rcases hp : parseArg env d s.push with ⟨o, u⟩
  rw [hp] at h
  cases o with
  | ok v =>
    simp only [Prod.mk.injEq, Outcome.ok.injEq] at h
    exact ⟨v, h.1.symm⟩
  | err e => simp at h
  | out => simp at h

theorem looseLoop_keeps (env : TypeEnv) (isAdj : Bool) :
    ∀ (ds : List CmdArgument) (idx : Nat) (stop : Bool) (r : ParseResult)
      (s s' : ArgTokenStream) (r' : ParseResult),
      looseLoop env isAdj ds idx stop r s = (.ok r', s') → keepsBindings r r' := by
  intro ds
  induction ds with
  | nil =>
    intro idx stop r s s' r' h
    have h2 : ((.ok r, s) : Outcome ParseResult × ArgTokenStream) = (.ok r', s') := h
    simp only [Prod.mk.injEq, Outcome.ok.injEq] at h2
    exact h2.1 ▸ keepsBindings_refl r
  | cons d ds ih =>
    intro idx stop r s s' r' h
    unfold looseLoop at h
    split at h
    · -- stopped branch: bind the default, then the order check
      split at h
      · simp [throwM] at h
      · exact keepsBindings_trans (keepsBindings_setR r d.id d.default)
          (ih (idx + 1) true _ _ _ _ h)
    · -- attempt branch
      simp only [] at h
      rcases ha : attemptOne env d r s with ⟨o, t⟩
      rw [ha] at h
      cases o with
      | ok r1 =>
        obtain ⟨v, hv⟩ := attemptOne_ok_shape env d r s t r1 ha
        exact keepsBindings_trans (hv ▸ keepsBindings_setR r d.id v)
          (ih (idx + 1) false _ _ _ _ h)
      | err e =>
        simp only [] at h
        split at h
        · simp at h
        · exact ih (idx + 1) true _ _ _ _ h
      | out => simp at h

theorem parseLooseArgs_keeps (env : TypeEnv) (argDefs : List CmdArgument)
    (r : ParseResult) (isAdj : Bool) (name : String) (s s' : ArgTokenStream)
    (r' : ParseResult) (h : parseLooseArgs env argDefs r isAdj name s = (.ok r', s')) :
    keepsBindings r r' := by
  unfold parseLooseArgs at h
  split at h
  · simp [throwM] at h
  · exact looseLoop_keeps env isAdj argDefs 0 false r s s' r' h

theorem parseLongOption_keeps (env : TypeEnv) (optDefs : List CmdOption)
    (r : ParseResult) (s s' : ArgTokenStream) (r' : ParseResult)
    (h : parseLongOption env optDefs r s = (.ok r', s')) : keepsBindings r r' := by
  unfold parseLongOption at h
  rcases hc : s.current with _ | t
  · rw [hc] at h
    simp at h
  · rw [hc] at h
    simp only [] at h
    split at h
    · split at h
      · simp at h
      · exact keepsBindings_trans (keepsBindings_bumpCounter r _)
          (parseLooseArgs_keeps _ _ _ _ _ _ _ _ h)
    · simp only [Prod.mk.injEq, Outcome.ok.injEq] at h
      exact h.1 ▸ keepsBindings_refl r

theorem shortLoop_keeps (env : TypeEnv) (optDefs : List CmdOption) :
    ∀ (cs : List Char) (r : ParseResult) (s s' : ArgTokenStream) (r' : ParseResult),
      shortLoop env optDefs cs r s = (.ok r', s') → keepsBindings r r' := by
  intro cs
  induction cs with
  | nil =>
    intro r s s' r' h
    have h2 : ((.ok r, s) : Outcome ParseResult × ArgTokenStream) = (.ok r', s') := h
    simp only [Prod.mk.injEq, Outcome.ok.injEq] at h2
    exact h2.1 ▸ keepsBindings_refl r
  | cons c cs ih =>
    intro r s s' r' h
    unfold shortLoop at h
    rcases hf : optDefs.find? (fun v => v.short.contains c) with _ | optDef
    all_goals rw [hf] at h
    · simp [throwM] at h
    · simp only [] at h
      split at h
      · exact keepsBindings_trans (keepsBindings_bumpCounter r _) (ih _ _ _ _ h)
      · simp only [] at h
        exact keepsBindings_trans (keepsBindings_bumpCounter r _)
          (parseLooseArgs_keeps _ _ _ _ _ _ _ _ h)

theorem parseShortOption_keeps (env : TypeEnv) (optDefs : List CmdOption)
    (r : ParseResult) (s s' : ArgTokenStream) (r' : ParseResult)
    (h : parseShortOption env optDefs r s = (.ok r', s')) : keepsBindings r r' := by
  unfold parseShortOption at h
  rcases hc : s.current with _ | t
  · rw [hc] at h
    simp at h
  · rw [hc] at h
    simp only [] at h
    split at h
    · exact shortLoop_keeps env optDefs _ r _ s' r' h
    · simp only [Prod.mk.injEq, Outcome.ok.injEq] at h
      exact h.1 ▸ keepsBindings_refl r

theorem argDefaults_ok (ds : List CmdArgument) :
    ∀ (r : ParseResult) (endReq : Bool) (r' : ParseResult),
      argDefaults ds r endReq = .ok r' →
      keepsBindings r r' ∧ ∀ d ∈ ds, (getR r' d.id).isSome = true := by
  induction ds with
  | nil =>
    intro r endReq r' h
    have h2 : Except.ok (ε := PErr) r = .ok r' := h
    simp only [Except.ok.injEq] at h2
    exact ⟨h2 ▸ keepsBindings_refl r, by simp⟩
  | cons d ds ih =>
    intro r endReq r' h
    unfold argDefaults at h
    split at h
    · cases h
    · split at h
      · cases h
      · obtain ⟨hk, hb⟩ := ih (setR r d.id d.default) _ r' h
        refine ⟨keepsBindings_trans (keepsBindings_setR r d.id d.default) hk, ?_⟩
        intro d' hd'
        rcases List.mem_cons.mp hd' with heq | hmem
        · subst heq
          exact hk d'.id (by simp [getR_setR_self])
        · exact hb d' hmem

theorem subDefaults_keeps (g : Grammar) (recur : Nat → ParseResult → Outcome ParseResult)
    (hrec : ∀ w r r', recur w r = .ok r' → keepsBindings r r') :
    ∀ (ws : List Nat) (r : ParseResult) (vs : List Nat) (r' : ParseResult),
      subDefaults g recur ws r vs = .ok r' → keepsBindings r r' := by
  intro ws
  induction ws with
  | nil =>
    intro r vs r' h
    have h2 : Outcome.ok r = .ok r' := h
    simp only [Outcome.ok.injEq] at h2
    exact h2 ▸ keepsBindings_refl r
  | cons w ws ih =>
    intro r vs r' h
    unfold subDefaults at h
    simp only [] at h
    split at h
    · exact ih r vs r' h
    · split at h
      · simp only [Outcome.ok.injEq] at h
        exact h ▸ keepsBindings_refl r
      · exact hrec w r r' h

theorem setVerbDefaults_ok (g : Grammar) :
    ∀ (fuel vIdx : Nat) (r : ParseResult) (argIdx : Nat) (doSub endReq : Bool)
      (vs : List Nat) (r' : ParseResult),
      setVerbDefaults g fuel vIdx r argIdx doSub endReq vs = .ok r' →
      keepsBindings r r' ∧
      (∀ d ∈ (fetchVerb g vIdx).args.drop argIdx, (getR r' d.id).isSome = true) ∧
      getR r' (fetchVerb g vIdx).id = some (.bool true) := by
  intro fuel
  induction fuel with
  | zero => intro vIdx r argIdx doSub endReq vs r' h; cases h
  | succ fuel ih =>
    intro vIdx r argIdx doSub endReq vs r' h
    unfold setVerbDefaults at h
    simp only [] at h
    split at h
    · cases h
    · rename_i r1 hargs
      obtain ⟨hk1, hb1⟩ := argDefaults_ok _ r _ r1 hargs
      rcases hA : (if (doSub && !(fetchVerb g vIdx).subcmds.isEmpty) = true then
          subDefaults g (fun w rr => setVerbDefaults g fuel w rr 0 true true (vIdx :: vs))
            (fetchVerb g vIdx).subcmds r1 (vIdx :: vs)
        else Outcome.ok r1) with o
      rw [hA] at h
      cases o with
      | ok r2 =>
        simp only [Outcome.ok.injEq] at h
        have hk2 : keepsBindings r1 r2 := by
          split at hA
          · exact subDefaults_keeps g _
              (fun w rr rr' hh => (ih w rr 0 true true (vIdx :: vs) rr' hh).1)
              _ r1 (vIdx :: vs) r2 hA
          · simp only [Outcome.ok.injEq] at hA
            exact hA ▸ keepsBindings_refl r1
        subst h
        refine ⟨?_, ?_, getR_setR_self r2 _ _⟩
        · exact keepsBindings_trans hk1 (keepsBindings_trans hk2
            (keepsBindings_setR r2 _ _))
        · intro d hd
          exact isSome_getR_setR r2 _ _ _ (hk2 d.id (hb1 d hd))
      | err e => cases h
      | out => cases h

theorem parseSubVerb_keeps (env : TypeEnv) (g : Grammar) (fuel : Nat)
    (cmds : List Nat) (r : ParseResult) (upOpts : List CmdOption)
    (s s' : ArgTokenStream) (r' : ParseResult)
    (h : parseSubVerb env g fuel cmds r upOpts s = (.ok r', s')) : keepsBindings r r' := by
  cases fuel with
  | zero => simp [parseSubVerb] at h
  | succ fuel =>
    unfold parseSubVerb at h
    obtain ⟨w, _, sub, hsub⟩ := subScan_ok_shape _ _ _ _ _ _ _ _ _ _ h
    exact hsub ▸ keepsBindings_setR r _ _

theorem mem_drop_of_le_getElem {α : Type} (l : List α) (k i : Nat)
    (hi : i < l.length) (hk : k ≤ i) : l[i] ∈ l.drop k := by
  have h2 : i - k < (l.drop k).length := by rw [List.length_drop]; omega
  have h3 : (l.drop k)[i - k] = l[i] := by
    rw [List.getElem_drop]
    congr 1
    omega
  rw [← h3]
  exact List.getElem_mem h2

theorem verbLoop_ok (env : TypeEnv) (g : Grammar) :
    ∀ (fuel vIdx : Nat) (upOpts : List CmdOption) (r : ParseResult) (argIdx : Nat)
      (hasSub stopOpts endReq : Bool) (s : ArgTokenStream)
      (r' : ParseResult) (argIdx' : Nat) (hasSub' endReq' : Bool) (s' : ArgTokenStream),
      verbLoop env g fuel vIdx upOpts r argIdx hasSub stopOpts endReq s =
        (.ok (r', argIdx', hasSub', endReq'), s') →
      keepsBindings r r' ∧ argIdx ≤ argIdx' ∧
      ∀ i, argIdx ≤ i → i < argIdx' →
        (getR r' ((fetchVerb g vIdx).args.getD i dummyArg).id).isSome = true := by
  intro fuel
  induction fuel with
  | zero =>
    intro vIdx upOpts r argIdx hasSub stopOpts endReq s r' argIdx' hasSub' endReq' s' h
    have h2 : ((.out, s) : Outcome (ParseResult × Nat × Bool × Bool) × ArgTokenStream) =
        (.ok (r', argIdx', hasSub', endReq'), s') := h
    simp at h2
  | succ fuel ih =>
    intro vIdx upOpts r argIdx hasSub stopOpts endReq s r' argIdx' hasSub' endReq' s' h
    unfold verbLoop at h
    simp only [] at h
    rcases hc : s.current with _ | arg
    all_goals rw [hc] at h
    · -- end of tokens: loop exit, state returned unchanged
      simp only [Prod.mk.injEq, Outcome.ok.injEq] at h
      obtain ⟨⟨h1, h2, h3, h4⟩, h5⟩ := h
      subst h1 h2
      exact ⟨keepsBindings_refl _, le_refl _, fun i hi1 hi2 => absurd hi2 (by omega)⟩
    · simp only [] at h
      split at h
      · -- option-token route
        split at h
        · -- short option
          rcases hP : parseShortOption env upOpts r s with ⟨o, t⟩
          rw [hP] at h
          cases o with
          | ok r1 =>
            obtain ⟨hk, hle, hb⟩ := ih vIdx upOpts r1 argIdx hasSub stopOpts endReq t
              r' argIdx' hasSub' endReq' s' h
            exact ⟨keepsBindings_trans (parseShortOption_keeps env upOpts r s t r1 hP) hk,
              hle, hb⟩
          | err e => simp at h
          | out => simp at h
        · split at h
          · -- bare double dash
            exact ih vIdx upOpts r argIdx hasSub true endReq s.consume
              r' argIdx' hasSub' endReq' s' h
          · -- long option
            rcases hP : parseLongOption env upOpts r s with ⟨o, t⟩
            rw [hP] at h
            cases o with
            | ok r1 =>
              obtain ⟨hk, hle, hb⟩ := ih vIdx upOpts r1 argIdx hasSub stopOpts endReq t
                r' argIdx' hasSub' endReq' s' h
              exact ⟨keepsBindings_trans (parseLongOption_keeps env upOpts r s t r1 hP) hk,
                hle, hb⟩
            | err e => simp at h
            | out => simp at h
      · split at h
        · -- positional parameter
          split at h
          · simp at h
          · rcases hP : parseArg env ((fetchVerb g vIdx).args.getD argIdx dummyArg) s with ⟨o, t⟩
            rw [hP] at h
            cases o with
            | ok v =>
              obtain ⟨hk, hle, hb⟩ := ih vIdx upOpts
                (setR r ((fetchVerb g vIdx).args.getD argIdx dummyArg).id v) (argIdx + 1)
                hasSub stopOpts _ t r' argIdx' hasSub' endReq' s' h
              refine ⟨keepsBindings_trans (keepsBindings_setR r _ v) hk, by omega, ?_⟩
              intro i hi1 hi2
              by_cases hieq : i = argIdx
              · subst hieq
                exact hk _ (by simp [getR_setR_self])
              · exact hb i (by omega) hi2
            | err e => simp at h
            | out => simp at h
        · split at h
          · -- sub-verb dispatch, then break
            rcases hP : parseSubVerb env g fuel (fetchVerb g vIdx).subcmds r upOpts s with ⟨o, t⟩
            rw [hP] at h
            cases o with
            | ok r1 =>
              simp only [Prod.mk.injEq, Outcome.ok.injEq] at h
              obtain ⟨⟨h1, h2, h3, h4⟩, h5⟩ := h
              subst h1 h2
              exact ⟨parseSubVerb_keeps env g fuel _ r upOpts s t _ hP, le_refl _,
                fun i hi1 hi2 => absurd hi2 (by omega)⟩
            | err e => simp at h
            | out => simp at h
          · simp [throwM] at h

theorem parseVerb_succ (env : TypeEnv) (g : Grammar) (fuel vIdx : Nat)
    (upOpts : List CmdOption) (s : ArgTokenStream) :
    parseVerb env g (fuel + 1) vIdx upOpts s =
      (match verbLoop env g fuel vIdx (upOpts ++ (fetchVerb g vIdx).options)
          [] 0 false false false s with
       | (.ok (result, argIdx, hasSubCmd, endReqArgs), s') =>
         (match setVerbDefaults g (g.length + 1) vIdx result argIdx
             (!hasSubCmd) endReqArgs [] with
          | .ok result => (.ok (setR result (fetchVerb g vIdx).id (.bool true)), s')
          | .err e => (.err e, s')
          | .out => (.out, s'))
       | (.err e, s') => (.err e, s')
       | (.out, s') => (.out, s')) := rfl

/-- C2 (amended) — whenever `parseVerb` returns successfully, the
returned Result Record contains a binding for every positional argument
id the verb declares (an explicitly parsed value for the positionals
that consumed input, the declared default for the rest) and binds the
verb's own id to `true`.  Option ids are bound only when the option
occurs in the input, and sub-verb ids only for the candidate actually
committed (or filled in by the defaulting pass) — see the
counterexample for the original claim. -/
theorem parseVerb_binds_positionals_and_verb_id (env : TypeEnv) (g : Grammar)
    (fuel vIdx : Nat) (upOpts : List CmdOption) (s s' : ArgTokenStream)
    (r' : ParseResult)
    (h : parseVerb env g fuel vIdx upOpts s = (.ok r', s')) :
    (∀ d ∈ (fetchVerb g vIdx).args, (getR r' d.id).isSome = true) ∧
    getR r' (fetchVerb g vIdx).id = some (.bool true) := by
  cases fuel with
  | zero => simp [parseVerb] at h
  | succ fuel =>
    rw [parseVerb_succ] at h
    rcases hL : verbLoop env g fuel vIdx (upOpts ++ (fetchVerb g vIdx).options)
        [] 0 false false false s with ⟨o, s₂⟩
    rw [hL] at h
    cases o with
    | ok tup =>
      obtain ⟨r1, argIdx', hasSub', endReq'⟩ := tup
      split at h
      · rename_i hset
        simp only [Prod.mk.injEq, Outcome.ok.injEq] at hset
        obtain ⟨⟨e1, e2, e3, e4⟩, e5⟩ := hset
        subst e1 e2 e3 e4 e5
        split at h
        · rename_i r2 hset2
          simp only [Prod.mk.injEq, Outcome.ok.injEq] at h
          obtain ⟨h1, h2⟩ := h
          obtain ⟨hkL, hle, hbL⟩ := verbLoop_ok env g fuel vIdx _ [] 0 false false false s
            r1 argIdx' hasSub' endReq' s₂ hL
          obtain ⟨hkS, hbS, hidS⟩ := setVerbDefaults_ok g (g.length + 1) vIdx r1 argIdx'
            (!hasSub') endReq' [] r2 hset2
          subst h1
          constructor
          · intro d hd
            obtain ⟨i, hilen, hieq⟩ := List.mem_iff_getElem.mp hd
            by_cases hcase : i < argIdx'
            · have hbind := hbL i (Nat.zero_le i) hcase
              have hgd : (fetchVerb g vIdx).args.getD i dummyArg = d := by
                rw [List.getD_eq_getElem _ _ hilen]
                exact hieq
              rw [hgd] at hbind
              exact isSome_getR_setR _ _ _ _ (hkS d.id hbind)
            · have hdrop : d ∈ (fetchVerb g vIdx).args.drop argIdx' := by
                rw [← hieq]
                exact mem_drop_of_le_getElem _ argIdx' i hilen (by omega)
              exact isSome_getR_setR _ _ _ _ (hbS d hdrop)
          · exact getR_setR_self r2 _ _
        · cases h
        · cases h
      · rename_i hset
        simp at hset
      · rename_i hset
        simp at hset
    | err e => simp at h
    | out => simp at h

/-- C2 (counterexample) — the original claim binds every declared
option id (to a parsed value or a default).  Grammar `gC2` declares the
option `o`; on empty input the parse succeeds but the record contains
no binding at all for `o` (options have no defaulting pass). -/
theorem parseVerb_unused_option_unbound :
    parseVerb testEnv gC2 10 0 [] (mkStream []) =
      (.ok [("v", Value.bool true)], mkStream []) ∧
    getR [("v", Value.bool true)] "o" = none :=
  ⟨rfl, rfl⟩

/-- Witness for the amended completeness theorem on spec scenario 1:
`mv a.txt b.txt`. -/
theorem parseVerb_binds_positionals_witness :
    parseVerb testEnv gMv 10 0 [] (mkStream ["a.txt", "b.txt"]) =
      (.ok [("src", Value.str "a.txt"), ("dst", Value.str "b.txt"), ("mv", Value.bool true)],
       ⟨["a.txt", "b.txt"], 2, []⟩) ∧
    ((∀ d ∈ (fetchVerb gMv 0).args,
        (getR [("src", Value.str "a.txt"), ("dst", Value.str "b.txt"), ("mv", Value.bool true)]
          d.id).isSome = true) ∧
      getR [("src", Value.str "a.txt"), ("dst", Value.str "b.txt"), ("mv", Value.bool true)]
        (fetchVerb gMv 0).id = some (.bool true)) :=
  ⟨rfl,
    parseVerb_binds_positionals_and_verb_id testEnv gMv 10 0 [] (mkStream ["a.txt", "b.txt"])
      ⟨["a.txt", "b.txt"], 2, []⟩
      [("src", Value.str "a.txt"), ("dst", Value.str "b.txt"), ("mv", Value.bool true)] rfl⟩

/-! ## Stream primitive lemmas for the equivalence relation -/

theorem get?_eq_head?_drop {α : Type} (l : List α) (n : Nat) :
    l.get? n = (l.drop n).head? := by
  induction l generalizing n with
  | nil => simp
  | cons a t ih => cases n <;> simp [ih]

theorem state_consume (s : ArgTokenStream) : s.consume.state = s.state := by
  unfold ArgTokenStream.consume
  split <;> rfl

theorem remOf_consume (s : ArgTokenStream) : remOf s.consume = (remOf s).tail := by
  unfold ArgTokenStream.consume remOf
  split
  · exact (List.tail_drop s.args s.pos).symm
  · rename_i hge
    rw [List.drop_eq_nil_of_le (by omega)]
    rfl

theorem savedRems_consume (s : ArgTokenStream) : savedRems s.consume = savedRems s := by
  unfold savedRems
  rw [state_consume]

theorem WF_consume (s : ArgTokenStream) (h : WFStream s) : WFStream s.consume := by
  obtain ⟨h1, h2⟩ := h
  unfold ArgTokenStream.consume
  split
  · exact ⟨by simp; omega, h2⟩
  · exact ⟨h1, h2⟩

theorem remOf_insert (s : ArgTokenStream) (tok : String) (h : s.pos ≤ s.args.length) :
    remOf (s.insert tok) = tok :: remOf s := by
  unfold ArgTokenStream.insert remOf
  simp only []
  rw [List.drop_append_of_le_length (by simp [List.length_take]; omega)]
  rw [List.drop_take]
  simp

theorem savedRems_insert (s : ArgTokenStream) (tok : String) :
    savedRems (s.insert tok) = savedRems s := rfl

theorem WF_insert (s : ArgTokenStream) (tok : String) (h : WFStream s) :
    WFStream (s.insert tok) := by
  obtain ⟨h1, h2⟩ := h
  refine ⟨?_, h2⟩
  unfold ArgTokenStream.insert
  simp [List.length_take]
  omega

theorem current_eq_head_remOf (s : ArgTokenStream) : s.current = (remOf s).head? := by
  unfold ArgTokenStream.current remOf
  exact get?_eq_head?_drop s.args s.pos

theorem isEnd_eq_isEmpty_remOf (s : ArgTokenStream) : s.isEnd = (remOf s).isEmpty := by
  unfold ArgTokenStream.isEnd remOf
  by_cases h : s.args.length ≤ s.pos
  · rw [List.drop_eq_nil_of_le h]
    simp [h]
  · have hne : s.args.drop s.pos ≠ [] := by
      rw [ne_eq, List.drop_eq_nil_iff]
      omega
    rcases hd : s.args.drop s.pos with _ | ⟨a, t⟩
    · exact absurd hd hne
    · simp [h]

theorem remOf_push (s : ArgTokenStream) : remOf s.push = remOf s := rfl

theorem savedRems_push (s : ArgTokenStream) :
    savedRems s.push = remOf s :: savedRems s := rfl

theorem WF_push (s : ArgTokenStream) (h : WFStream s) : WFStream s.push := by
  obtain ⟨h1, h2⟩ := h
  refine ⟨h1, ?_⟩
  intro p hp
  rcases List.mem_cons.mp hp with heq | hmem
  · subst heq; exact h1
  · exact h2 p hmem

theorem remOf_complete (s : ArgTokenStream) : remOf s.complete = remOf s := rfl

theorem savedRems_complete (s : ArgTokenStream) :
    savedRems s.complete = (savedRems s).tail := by
  unfold savedRems ArgTokenStream.complete
  cases s.state <;> simp

theorem WF_complete (s : ArgTokenStream) (h : WFStream s) : WFStream s.complete := by
  obtain ⟨h1, h2⟩ := h
  exact ⟨h1, fun p hp => h2 p (List.mem_of_mem_drop hp)⟩

theorem StreamEquiv_consume {s t : ArgTokenStream} (h : StreamEquiv s t) :
    StreamEquiv s.consume t.consume := by
  obtain ⟨hws, hwt, hrem, hsave⟩ := h
  exact ⟨WF_consume s hws, WF_consume t hwt,
    by rw [remOf_consume, remOf_consume, hrem],
    by rw [savedRems_consume, savedRems_consume, hsave]⟩

theorem StreamEquiv_insert {s t : ArgTokenStream} (tok : String) (h : StreamEquiv s t) :
    StreamEquiv (s.insert tok) (t.insert tok) := by
  obtain ⟨hws, hwt, hrem, hsave⟩ := h
  exact ⟨WF_insert s tok hws, WF_insert t tok hwt,
    by rw [remOf_insert s tok hws.1, remOf_insert t tok hwt.1, hrem],
    by rw [savedRems_insert, savedRems_insert]; exact hsave⟩

theorem StreamEquiv_push {s t : ArgTokenStream} (h : StreamEquiv s t) :
    StreamEquiv s.push t.push := by
  obtain ⟨hws, hwt, hrem, hsave⟩ := h
  exact ⟨WF_push s hws, WF_push t hwt, hrem,
    by rw [savedRems_push, savedRems_push, hrem, hsave]⟩

theorem StreamEquiv_complete {s t : ArgTokenStream} (h : StreamEquiv s t) :
    StreamEquiv s.complete t.complete := by
  obtain ⟨hws, hwt, hrem, hsave⟩ := h
  exact ⟨WF_complete s hws, WF_complete t hwt, hrem,
    by rw [savedRems_complete, savedRems_complete, hsave]⟩

theorem StreamEquiv_pop {s t : ArgTokenStream} (h : StreamEquiv s t) :
    StreamEquiv s.pop t.pop := by
  obtain ⟨hws, hwt, hrem, hsave⟩ := h
  unfold ArgTokenStream.pop
  rcases hs : s.state with _ | ⟨⟨p, a⟩, rest⟩
  · rcases ht : t.state with _ | ⟨⟨q, b⟩, rest2⟩
    · exact ⟨hws, hwt, hrem, hsave⟩
    · exfalso
      unfold savedRems at hsave
      rw [hs, ht] at hsave
      simp at hsave
  · rcases ht : t.state with _ | ⟨⟨q, b⟩, rest2⟩
    · exfalso
      unfold savedRems at hsave
      rw [hs, ht] at hsave
      simp at hsave
    · unfold savedRems at hsave
      rw [hs, ht] at hsave
      simp only [List.map_cons, List.cons.injEq] at hsave
      obtain ⟨hhead, htail⟩ := hsave
      refine ⟨⟨hws.2 (p, a) (hs ▸ List.mem_cons_self _ _), ?_⟩,
        ⟨hwt.2 (q, b) (ht ▸ List.mem_cons_self _ _), ?_⟩, ?_, ?_⟩
      · intro pr hpr
        exact hws.2 pr (hs ▸ List.mem_cons_of_mem _ hpr)
      · intro pr hpr
        exact hwt.2 pr (ht ▸ List.mem_cons_of_mem _ hpr)
      · exact hhead
      · exact htail

theorem current_of_equiv {s t : ArgTokenStream} (h : StreamEquiv s t) :
    s.current = t.current := by
  rw [current_eq_head_remOf, current_eq_head_remOf, h.2.2.1]

theorem isEnd_of_equiv {s t : ArgTokenStream} (h : StreamEquiv s t) :
    s.isEnd = t.isEnd := by
  rw [isEnd_eq_isEmpty_remOf, isEnd_eq_isEmpty_remOf, h.2.2.1]

/-! ## The engine respects stream equivalence (spec §4.2 resolvers) -/

theorem parseArg_equiv (env : TypeEnv) (henv : EnvSuffixInv env) (d : CmdArgument)
    (s t : ArgTokenStream) (hst : StreamEquiv s t) :
    MEquiv (parseArg env d s) (parseArg env d t) := by
  unfold parseArg
  rw [isEnd_of_equiv hst]
  by_cases hend : (t.isEnd && !d.optional) = true
  · rw [if_pos hend, if_pos hend]
    exact ⟨rfl, hst⟩
  · rw [if_neg hend, if_neg hend]
    have hres := henv d.type d s t hst
    rcases hs : env d.type d s with ⟨es, s1⟩
    rcases ht : env d.type d t with ⟨et, t1⟩
    rw [hs, ht] at hres
    cases es with
    | ok v =>
      cases et with
      | ok w => exact hres
      | error f => exact hres.elim
    | error e =>
      cases et with
      | ok w => exact hres.elim
      | error f => exact hres

theorem looseLoop_equiv (env : TypeEnv) (henv : EnvSuffixInv env) (isAdj : Bool) :
    ∀ (ds : List CmdArgument) (idx : Nat) (stop : Bool) (r : ParseResult)
      (s t : ArgTokenStream), StreamEquiv s t →
      MEquiv (looseLoop env isAdj ds idx stop r s) (looseLoop env isAdj ds idx stop r t) := by
  intro ds
  induction ds with
  | nil =>
    intro idx stop r s t hst
    exact ⟨rfl, hst⟩
  | cons d ds ih =>
    intro idx stop r s t hst
    cases stop with
    | true =>
      show MEquiv
        ((match checkArgDefOrder d true with
          | .error e => throwM e
          | .ok _ => looseLoop env isAdj ds (idx + 1) true (setR r d.id d.default)) s)
        ((match checkArgDefOrder d true with
          | .error e => throwM e
          | .ok _ => looseLoop env isAdj ds (idx + 1) true (setR r d.id d.default)) t)
      rcases checkArgDefOrder d true with e | b
      · exact ⟨rfl, hst⟩
      · exact ih (idx + 1) true _ s t hst
    | false =>
      show MEquiv
        (match attemptOne env d r s with
         | (.ok result', s') => looseLoop env isAdj ds (idx + 1) false result' s'
         | (.err e, s') =>
           if (!d.optional || (isAdj && idx == 0)) = true then (.err e, s')
           else looseLoop env isAdj ds (idx + 1) true r s'.pop
         | (.out, s') => (.out, s'))
        (match attemptOne env d r t with
         | (.ok result', t') => looseLoop env isAdj ds (idx + 1) false result' t'
         | (.err e, t') =>
           if (!d.optional || (isAdj && idx == 0)) = true then (.err e, t')
           else looseLoop env isAdj ds (idx + 1) true r t'.pop
         | (.out, t') => (.out, t'))
      have hpa := parseArg_equiv env henv d s.push t.push (StreamEquiv_push hst)
      unfold attemptOne
      rcases hs1 : parseArg env d s.push with ⟨os, s1⟩
      rcases ht1 : parseArg env d t.push with ⟨ot, t1⟩
      rw [hs1, ht1] at hpa
      cases os with
      | ok v =>
        cases ot with
        | ok w =>
          obtain ⟨hv, hequiv⟩ := hpa
          subst hv
          exact ih (idx + 1) false _ _ _ (StreamEquiv_complete hequiv)
        | err f => exact hpa.elim
        | out => exact hpa.elim
      | err e =>
        cases ot with
        | ok w => exact hpa.elim
        | err f =>
          obtain ⟨he, hequiv⟩ := hpa
          subst he
          dsimp only
          by_cases hcond : (!d.optional || (isAdj && idx == 0)) = true
          · rw [if_pos hcond, if_pos hcond]
            exact ⟨rfl, hequiv⟩
          · rw [if_neg hcond, if_neg hcond]
            exact ih (idx + 1) true r _ _ (StreamEquiv_pop hequiv)
        | out => exact hpa.elim
      | out =>
        cases ot with
        | ok w => exact hpa.elim
        | err f => exact hpa.elim
        | out => exact hpa

theorem parseLooseArgs_equiv (env : TypeEnv) (henv : EnvSuffixInv env)
    (argDefs : List CmdArgument) (r : ParseResult) (isAdj : Bool) (name : String)
    (s t : ArgTokenStream) (hst : StreamEquiv s t) :
    MEquiv (parseLooseArgs env argDefs r isAdj name s)
           (parseLooseArgs env argDefs r isAdj name t) := by
  unfold parseLooseArgs
  split
  · exact ⟨rfl, hst⟩
  · exact looseLoop_equiv env henv isAdj argDefs 0 false r s t hst

theorem looseLoop_adj_irrelevant (env : TypeEnv) :
    ∀ (ds : List CmdArgument) (idx : Nat) (stop : Bool) (r : ParseResult)
      (s : ArgTokenStream), idx ≠ 0 →
      looseLoop env true ds idx stop r s = looseLoop env false ds idx stop r s := by
  intro ds
  induction ds with
  | nil => intro idx stop r s hidx; rfl
  | cons d ds ih =>
    intro idx stop r s hidx
    have hbeq : (idx == 0) = false := by simp [hidx]
    cases stop with
    | true =>
      show (match checkArgDefOrder d true with
            | .error e => throwM e
            | .ok _ => looseLoop env true ds (idx + 1) true (setR r d.id d.default)) s =
          (match checkArgDefOrder d true with
            | .error e => throwM e
            | .ok _ => looseLoop env false ds (idx + 1) true (setR r d.id d.default)) s
      rcases checkArgDefOrder d true with e | b
      · rfl
      · exact ih (idx + 1) true _ s (by omega)
    | false =>
      show (match attemptOne env d r s with
            | (.ok result', s') => looseLoop env true ds (idx + 1) false result' s'
            | (.err e, s') =>
              if (!d.optional || (true && idx == 0)) = true then (.err e, s')
              else looseLoop env true ds (idx + 1) true r s'.pop
            | (.out, s') => (.out, s')) =
          (match attemptOne env d r s with
            | (.ok result', s') => looseLoop env false ds (idx + 1) false result' s'
            | (.err e, s') =>
              if (!d.optional || (false && idx == 0)) = true then (.err e, s')
              else looseLoop env false ds (idx + 1) true r s'.pop
            | (.out, s') => (.out, s'))
      rcases attemptOne env d r s with ⟨o, s1⟩
      cases o with
      | ok r1 => exact ih (idx + 1) false r1 s1 (by omega)
      | err e =>
        rw [hbeq]
        simp only [Bool.and_false, Bool.or_false]
        exact if_congr Iff.rfl rfl (ih (idx + 1) true r s1.pop (by omega))
      | out => rfl

/-- The heart of the adjacency law: parsing an option-argument list
with adjacency forced on, against a stream equivalent to one parsed
with adjacency off, yields equal outcomes and equivalent streams —
provided the first declared argument is required or its parse (under
the snapshot) succeeds. -/
theorem parseLooseArgs_adjacency (env : TypeEnv) (henv : EnvSuffixInv env)
    (d : CmdArgument) (ds : List CmdArgument) (r : ParseResult) (name : String)
    (s t : ArgTokenStream) (hst : StreamEquiv s t)
    (hfirst : d.optional = false ∨ ∃ v s2, parseArg env d s.push = (.ok v, s2)) :
    MEquiv (parseLooseArgs env (d :: ds) r true name s)
           (parseLooseArgs env (d :: ds) r false name t) := by
  show MEquiv (looseLoop env true (d :: ds) 0 false r s)
      (looseLoop env false (d :: ds) 0 false r t)
  show MEquiv
      (match attemptOne env d r s with
       | (.ok result', s') => looseLoop env true ds 1 false result' s'
       | (.err e, s') =>
         if (!d.optional || (true && 0 == 0)) = true then (.err e, s')
         else looseLoop env true ds 1 true r s'.pop
       | (.out, s') => (.out, s'))
      (match attemptOne env d r t with
       | (.ok result', t') => looseLoop env false ds 1 false result' t'
       | (.err e, t') =>
         if (!d.optional || (false && 0 == 0)) = true then (.err e, t')
         else looseLoop env false ds 1 true r t'.pop
       | (.out, t') => (.out, t'))
  have hpa := parseArg_equiv env henv d s.push t.push (StreamEquiv_push hst)
  unfold attemptOne
  rcases hs1 : parseArg env d s.push with ⟨os, s1⟩
  rcases ht1 : parseArg env d t.push with ⟨ot, t1⟩
  rw [hs1, ht1] at hpa
  cases os with
  | ok v =>
    cases ot with
    | ok w =>
      obtain ⟨hv, hequiv⟩ := hpa
      subst hv
      dsimp only
      rw [looseLoop_adj_irrelevant env ds 1 false _ _ (by omega)]
      exact looseLoop_equiv env henv false ds 1 false _ _ _ (StreamEquiv_complete hequiv)
    | err f => exact hpa.elim
    | out => exact hpa.elim
  | err e =>
    cases ot with
    | ok w => exact hpa.elim
    | err f =>
      obtain ⟨he, hequiv⟩ := hpa
      subst he
      dsimp only
      rcases hfirst with hreq | ⟨v, s2, hsucc⟩
      · rw [if_pos (by simp [hreq]), if_pos (by simp [hreq])]
        exact ⟨rfl, hequiv⟩
      · rw [hs1] at hsucc
        cases hsucc
    | out => exact hpa.elim
  | out =>
    cases ot with
    | ok w => exact hpa.elim
    | err f => exact hpa.elim
    | out => exact hpa

/-! ## C5 — the adjacency law for long options -/

theorem jsSplitEq_no_eq (cs : List Char) (h : ¬ '=' ∈ cs) : jsSplitEq cs = [cs] := by
  induction cs with
  | nil => rfl
  | cons c cs ih =>
    have hc : ¬ c = '=' := fun hh => h (hh ▸ List.mem_cons_self c cs)
    have hcs : ¬ '=' ∈ cs := fun hh => h (List.mem_cons_of_mem c hh)
    unfold jsSplitEq
    rw [if_neg hc, ih hcs]

theorem jsSplitEq_append (pre post : List Char) (h : ¬ '=' ∈ pre) :
    jsSplitEq (pre ++ '=' :: post) = pre :: jsSplitEq post := by
  induction pre with
  | nil => rfl
  | cons c pre ih =>
    have hc : ¬ c = '=' := fun hh => h (hh ▸ List.mem_cons_self c pre)
    have hpre : ¬ '=' ∈ pre := fun hh => h (List.mem_cons_of_mem c hh)
    show jsSplitEq (c :: (pre ++ '=' :: post)) = (c :: pre) :: jsSplitEq post
    conv_lhs => rw [jsSplitEq.eq_def]
    dsimp only
    rw [if_neg hc, ih hpre]

theorem suffixInv_stringParser : SuffixInv stringParser := by
  intro d s t hst
  unfold stringParser
  rw [current_of_equiv hst]
  cases t.current with
  | none => exact ⟨rfl, StreamEquiv_consume hst⟩
  | some a => exact ⟨rfl, StreamEquiv_consume hst⟩

theorem suffixInv_booleanParser : SuffixInv booleanParser := by
  intro d s t hst
  unfold booleanParser
  rw [current_of_equiv hst]
  cases t.current with
  | none => exact ⟨rfl, StreamEquiv_consume hst⟩
  | some a =>
    dsimp only
    by_cases h1 : a = "true"
    · rw [if_pos h1, if_pos h1]
      exact ⟨rfl, StreamEquiv_consume hst⟩
    · rw [if_neg h1, if_neg h1]
      by_cases h2 : a = "false"
      · rw [if_pos h2, if_pos h2]
        exact ⟨rfl, StreamEquiv_consume hst⟩
      · rw [if_neg h2, if_neg h2]
        exact ⟨rfl, StreamEquiv_consume hst⟩

theorem envSuffixInv_testEnv : EnvSuffixInv testEnv := by
  intro n
  unfold testEnv
  by_cases h : n = 1
  · rw [if_pos h]
    exact suffixInv_booleanParser
  · rw [if_neg h]
    exact suffixInv_stringParser

/-- C5 (counterexample) — the claim quantifies over every option
definition, but for an option declaring no arguments the two spellings
disagree: `--flag=w` is the hard error "Option --flag does not need
any argument" while `--flag` followed by `w` succeeds, counts the
flag, and leaves `w` on the stream. -/
theorem parseLongOption_attached_no_args_differs :
    (parseLongOption testEnv optDefsFlag [] (mkStream ["--flag=w"])).fst =
      .err (.userErr "Option --flag does not need any argument") ∧
    (parseLongOption testEnv optDefsFlag [] (mkStream ["--flag", "w"])).fst =
      .ok [("flag", Value.num 1)] ∧
    (Outcome.err (α := ParseResult) (.userErr "Option --flag does not need any argument") ≠
      .ok [("flag", Value.num 1)]) :=
  ⟨rfl, rfl, by simp⟩

/-- C5 (amended) — adjacency law: for every option definition that
declares at least one argument, and every `=`-free name and value,
parsing the single attached token
`--name=value` produces the same outcome (the same Result Record
bindings or the same error) and an observationally equal final stream
as parsing the two separate tokens `--name`, `value` — provided the
resolvers are spec §4.2 resolvers and the first declared argument is
required or its parse of the attached value succeeds (an optional
first argument whose parse fails is forced mandatory by adjacency,
which is what the extra hypothesis excludes). -/
theorem parseLongOption_adjacency_law (env : TypeEnv) (henv : EnvSuffixInv env)
    (optDefs : List CmdOption) (r : ParseResult) (optName value : String)
    (rest : List String) (optDef : CmdOption) (d : CmdArgument) (ds : List CmdArgument)
    (hname : ¬ '=' ∈ optName.data) (hval : ¬ '=' ∈ value.data)
    (hfind : optDefs.find? (fun v => v.long.contains optName) = some optDef)
    (hargs : optDef.args = d :: ds)
    (hfirst : d.optional = false ∨ ∃ v s2,
      parseArg env d (ArgTokenStream.push
        ⟨("--" ++ optName ++ "=" ++ value) :: value :: rest, 1, []⟩) = (.ok v, s2)) :
    MEquiv
      (parseLongOption env optDefs r (mkStream (("--" ++ optName ++ "=" ++ value) :: rest)))
      (parseLongOption env optDefs r (mkStream (("--" ++ optName) :: value :: rest))) := by
  have hdataA : ("--" ++ optName ++ "=" ++ value).data =
      '-' :: '-' :: (optName.data ++ '=' :: value.data) := by
    simp [String.data_append]
  have hdataB : ("--" ++ optName).data = '-' :: '-' :: optName.data := by
    simp [String.data_append]
  have hsplitA : jsSplitEq (optName.data ++ '=' :: value.data) =
      [optName.data, value.data] := by
    rw [jsSplitEq_append optName.data value.data hname, jsSplitEq_no_eq value.data hval]
  have hsplitB : jsSplitEq optName.data = [optName.data] := jsSplitEq_no_eq optName.data hname
  have hmkName : (⟨optName.data⟩ : String) = optName := rfl
  have hmkVal : (⟨value.data⟩ : String) = value := rfl
  unfold parseLongOption
  rw [show ArgTokenStream.current (mkStream (("--" ++ optName ++ "=" ++ value) :: rest)) =
      some ("--" ++ optName ++ "=" ++ value) from rfl]
  rw [show ArgTokenStream.current (mkStream (("--" ++ optName) :: value :: rest)) =
      some ("--" ++ optName) from rfl]
  simp only [hdataA, hdataB, hsplitA, hsplitB, List.headD_cons, hmkName, hmkVal, hfind]
  simp only [List.get?_cons_succ, List.get?_cons_zero, List.get?_nil, Option.isSome_some,
    Option.isSome_none, hmkVal]
  have hconsA : (mkStream (("--" ++ optName ++ "=" ++ value) :: rest)).consume =
      ⟨("--" ++ optName ++ "=" ++ value) :: rest, 1, []⟩ := by
    unfold mkStream ArgTokenStream.consume
    rw [if_pos (by simp)]
  have hinsA : ArgTokenStream.insert value ⟨("--" ++ optName ++ "=" ++ value) :: rest, 1, []⟩ =
      ⟨("--" ++ optName ++ "=" ++ value) :: value :: rest, 1, []⟩ := by
    unfold ArgTokenStream.insert
    simp
  have hconsB : (mkStream (("--" ++ optName) :: value :: rest)).consume =
      ⟨("--" ++ optName) :: value :: rest, 1, []⟩ := by
    unfold mkStream ArgTokenStream.consume
    rw [if_pos (by simp)]
  rw [hconsA, hinsA, hconsB, hargs]
  have hWA : WFStream ⟨("--" ++ optName ++ "=" ++ value) :: value :: rest, 1, []⟩ :=
    ⟨by simp only [List.length_cons]; omega, by intro p hp; cases hp⟩
  have hWB : WFStream ⟨("--" ++ optName) :: value :: rest, 1, []⟩ :=
    ⟨by simp only [List.length_cons]; omega, by intro p hp; cases hp⟩
  exact parseLooseArgs_adjacency env henv d ds (bumpCounter r optDef.id) ("--" ++ optName)
    _ _ ⟨hWA, hWB, rfl, rfl⟩ hfirst

theorem parseLongOption_adjacency_law_witness :
    MEquiv
      (parseLongOption testEnv optDefsLv [] (mkStream ["--lv=3"]))
      (parseLongOption testEnv optDefsLv [] (mkStream ["--lv", "3"])) :=
  parseLongOption_adjacency_law testEnv envSuffixInv_testEnv optDefsLv [] "lv" "3" []
    ⟨"level", ["lv"], [], [⟨"n", 0, false, .undef⟩]⟩ ⟨"n", 0, false, .undef⟩ []
    (by decide) (by decide) rfl rfl (Or.inl rfl)

/-! ## C6: the short-cluster law -/

/-- Scanning a prefix of flag-only characters in a short cluster bumps
their occurrence counters in order and continues with the rest of the
characters. -/
theorem shortLoop_flags (env : TypeEnv) (optDefs : List CmdOption)
    (flagChars : List Char) (tail : List Char) (r : ParseResult) :
    (∀ x ∈ flagChars, ∃ o, optDefs.find? (fun v => v.short.contains x) = some o ∧
      o.args.isEmpty = true) →
    shortLoop env optDefs (flagChars ++ tail) r =
      shortLoop env optDefs tail (bumpFlags optDefs r flagChars) := by
  induction flagChars generalizing r with
  | nil =>
    intro _
    rfl
  | cons x xs ih =>
    intro hf
    obtain ⟨o, ho, hoe⟩ := hf x (List.mem_cons_self x xs)
    have hxs : ∀ y ∈ xs, ∃ o, optDefs.find? (fun v => v.short.contains y) = some o ∧
        o.args.isEmpty = true := fun y hy => hf y (List.mem_cons_of_mem x hy)
    have hcons : shortLoop env optDefs ((x :: xs) ++ tail) r =
        shortLoop env optDefs (xs ++ tail) (bumpCounter r o.id) := by
      show shortLoop env optDefs (x :: (xs ++ tail)) r = _
      conv_lhs => rw [shortLoop]
      rw [ho]
      dsimp only
      rw [if_pos hoe]
    have hbump : bumpFlags optDefs r (x :: xs) = bumpFlags optDefs (bumpCounter r o.id) xs := by
      unfold bumpFlags
      rw [List.foldl_cons, ho]
    rw [hcons, ih (bumpCounter r o.id) hxs, hbump]

/-- A lone flag-only short token (`-x` with `x` declaring no arguments)
just bumps the counter and consumes the token. -/
theorem parseShortOption_flag_token (env : TypeEnv) (optDefs : List CmdOption)
    (r : ParseResult) (s : ArgTokenStream) (x : Char) (o : CmdOption)
    (hcur : s.current = some ⟨['-', x]⟩)
    (hfind : optDefs.find? (fun v => v.short.contains x) = some o)
    (hoe : o.args.isEmpty = true) :
    parseShortOption env optDefs r s = (.ok (bumpCounter r o.id), s.consume) := by
  unfold parseShortOption
  rw [hcur]
  show shortLoop env optDefs [x] r s.consume = _
  conv_lhs => rw [shortLoop]
  rw [hfind]
  dsimp only
  rw [if_pos hoe]
  rfl

/-- Characterisation of a short-cluster token `-<flags><c><rest>`: the
flag-only prefix bumps counters, the first argument-taking character
`c` bumps its own counter, the trailing text (if any) is inserted back
as one adjacent token, and the loop breaks into `parseLooseArgs` — the
trailing characters are never themselves resolved as options. -/
theorem parseShortOption_cluster (env : TypeEnv) (optDefs : List CmdOption)
    (r : ParseResult) (flagChars : List Char) (c : Char) (restChars : List Char)
    (optDef : CmdOption) (s : ArgTokenStream)
    (hf : ∀ x ∈ flagChars, ∃ o, optDefs.find? (fun v => v.short.contains x) = some o ∧
      o.args.isEmpty = true)
    (hfind : optDefs.find? (fun v => v.short.contains c) = some optDef)
    (hargs : optDef.args.isEmpty = false)
    (hcur : s.current = some ⟨'-' :: (flagChars ++ c :: restChars)⟩) :
    parseShortOption env optDefs r s =
      parseLooseArgs env optDef.args
        (bumpCounter (bumpFlags optDefs r flagChars) optDef.id)
        (!restChars.isEmpty) ("-" ++ String.mk [c])
        (if restChars.isEmpty then s.consume else s.consume.insert ⟨restChars⟩) := by
  unfold parseShortOption
  rw [hcur]
  show shortLoop env optDefs (flagChars ++ c :: restChars) r s.consume = _
  rw [shortLoop_flags env optDefs flagChars (c :: restChars) r hf]
  conv_lhs => rw [shortLoop]
  rw [hfind]
  dsimp only
  rw [if_neg (by simp [hargs])]

/-- Running `parseShortOption` over a sequence of lone flag-only
tokens `-x` bumps the counters in order and advances the cursor past
them. -/
theorem runShortTokens_flags (env : TypeEnv) (optDefs : List CmdOption)
    (flagChars : List Char) (n : Nat) (args0 after : List String)
    (st : List (Nat × List String)) (r : ParseResult) (p : Nat) :
    (∀ x ∈ flagChars, ∃ o, optDefs.find? (fun v => v.short.contains x) = some o ∧
      o.args.isEmpty = true) →
    args0.drop p = flagChars.map (fun x => (⟨['-', x]⟩ : String)) ++ after →
    runShortTokens env optDefs (flagChars.length + n) r ⟨args0, p, st⟩ =
      runShortTokens env optDefs n (bumpFlags optDefs r flagChars)
        ⟨args0, p + flagChars.length, st⟩ := by
  induction flagChars generalizing r p with
  | nil =>
    intro _ _
    simp only [List.length_nil, Nat.zero_add, Nat.add_zero]
    rfl
  | cons x xs ih =>
    intro hf hdrop
    obtain ⟨o, ho, hoe⟩ := hf x (List.mem_cons_self x xs)
    have hxs : ∀ y ∈ xs, ∃ o, optDefs.find? (fun v => v.short.contains y) = some o ∧
        o.args.isEmpty = true := fun y hy => hf y (List.mem_cons_of_mem x hy)
    have hlt : p < args0.length := by
      by_contra hle
      have hnil : args0.drop p = [] := List.drop_eq_nil_iff.mpr (by omega)
      rw [hnil] at hdrop
      exact absurd hdrop.symm (by simp)
    have hcur : (⟨args0, p, st⟩ : ArgTokenStream).current = some ⟨['-', x]⟩ := by
      show args0.get? p = some ⟨['-', x]⟩
      have h0 : (args0.drop p).get? 0 = some ⟨['-', x]⟩ := by rw [hdrop]; rfl
      rwa [List.get?_drop, Nat.add_zero] at h0
    have hcons : (⟨args0, p, st⟩ : ArgTokenStream).consume = ⟨args0, p + 1, st⟩ := by
      unfold ArgTokenStream.consume
      rw [if_pos hlt]
    have hdrop1 : args0.drop (p + 1) = xs.map (fun x => (⟨['-', x]⟩ : String)) ++ after := by
      have ht := congrArg List.tail hdrop
      rwa [List.tail_drop] at ht
    have hfuel : (x :: xs).length + n = (xs.length + n) + 1 := by
      simp only [List.length_cons]
      omega
    rw [hfuel]
    conv_lhs => rw [runShortTokens]
    dsimp only
    rw [parseShortOption_flag_token env optDefs r ⟨args0, p, st⟩ x o hcur ho hoe]
    dsimp only
    rw [hcons, ih (bumpCounter r o.id) (p + 1) hxs hdrop1]
    have hbump : bumpFlags optDefs r (x :: xs) = bumpFlags optDefs (bumpCounter r o.id) xs := by
      unfold bumpFlags
      rw [List.foldl_cons, ho]
    have hidx : p + 1 + xs.length = p + (x :: xs).length := by
      simp only [List.length_cons]
      omega
    rw [hbump, hidx]

/-- One step of `runShortTokens` is exactly `parseShortOption`. -/
theorem runShortTokens_one (env : TypeEnv) (optDefs : List CmdOption) (r : ParseResult)
    (s : ArgTokenStream) :
    runShortTokens env optDefs 1 r s = parseShortOption env optDefs r s := by
  show (match parseShortOption env optDefs r s with
    | (.ok r1, s1) => runShortTokens env optDefs 0 r1 s1
    | other => other) = _
  rcases h : parseShortOption env optDefs r s with ⟨oc, s1⟩
  cases oc <;> rfl

/-- C6 — short-cluster law.  With a prefix of flag-only short options
and a first argument-taking short option `c`: (i) the cluster token
`-<flags>c<rest>` with non-empty trailing text bumps every flag's
counter and `c`'s counter, re-inserts the trailing text as one
adjacent token (so it is never interpreted as further options), and
parses `c`'s arguments from it with adjacency set; (ii) the cluster
`-<flags>c` with no trailing text is, for spec §4.2 resolvers,
equivalent (same outcome, observationally equal final streams) to
parsing the split tokens `-x` … `-c`, with `c`'s argument resolved
from the next stream token. -/
theorem parseShortOption_cluster_law (env : TypeEnv) (henv : EnvSuffixInv env)
    (optDefs : List CmdOption) (r : ParseResult) (flagChars : List Char) (c : Char)
    (restChars : List Char) (optDef : CmdOption) (tokens : List String)
    (hf : ∀ x ∈ flagChars, ∃ o, optDefs.find? (fun v => v.short.contains x) = some o ∧
      o.args.isEmpty = true)
    (hfind : optDefs.find? (fun v => v.short.contains c) = some optDef)
    (hargs : optDef.args.isEmpty = false)
    (hrest : restChars ≠ []) :
    parseShortOption env optDefs r
        (mkStream (⟨'-' :: (flagChars ++ c :: restChars)⟩ :: tokens)) =
      parseLooseArgs env optDef.args
        (bumpCounter (bumpFlags optDefs r flagChars) optDef.id) true ("-" ++ String.mk [c])
        ⟨⟨'-' :: (flagChars ++ c :: restChars)⟩ :: ⟨restChars⟩ :: tokens, 1, []⟩ ∧
    MEquiv
      (parseShortOption env optDefs r (mkStream (⟨'-' :: (flagChars ++ [c])⟩ :: tokens)))
      (runShortTokens env optDefs (flagChars.length + 1) r
        (mkStream (flagChars.map (fun x => (⟨['-', x]⟩ : String)) ++ ⟨['-', c]⟩ :: tokens))) := by
  constructor
  · rw [parseShortOption_cluster env optDefs r flagChars c restChars optDef
        (mkStream (⟨'-' :: (flagChars ++ c :: restChars)⟩ :: tokens)) hf hfind hargs rfl]
    have hne : restChars.isEmpty = false := by
      cases restChars with
      | nil => exact absurd rfl hrest
      | cons a l => rfl
    have h1 : (mkStream (⟨'-' :: (flagChars ++ c :: restChars)⟩ :: tokens)).consume =
        ⟨⟨'-' :: (flagChars ++ c :: restChars)⟩ :: tokens, 1, []⟩ := by
      unfold mkStream ArgTokenStream.consume
      rw [if_pos (by simp)]
    have h2 : ArgTokenStream.insert ⟨restChars⟩
        ⟨⟨'-' :: (flagChars ++ c :: restChars)⟩ :: tokens, 1, []⟩ =
        ⟨⟨'-' :: (flagChars ++ c :: restChars)⟩ :: ⟨restChars⟩ :: tokens, 1, []⟩ := by
      unfold ArgTokenStream.insert
      simp
    simp only [hne, Bool.not_false, Bool.false_eq_true, if_false, h1, h2]
  · have h1 : (mkStream (⟨'-' :: (flagChars ++ [c])⟩ :: tokens)).consume =
        ⟨⟨'-' :: (flagChars ++ [c])⟩ :: tokens, 1, []⟩ := by
      unfold mkStream ArgTokenStream.consume
      rw [if_pos (by simp)]
    have hA : parseShortOption env optDefs r (mkStream (⟨'-' :: (flagChars ++ [c])⟩ :: tokens)) =
        parseLooseArgs env optDef.args (bumpCounter (bumpFlags optDefs r flagChars) optDef.id)
          false ("-" ++ String.mk [c]) ⟨⟨'-' :: (flagChars ++ [c])⟩ :: tokens, 1, []⟩ := by
      rw [parseShortOption_cluster env optDefs r flagChars c [] optDef
          (mkStream (⟨'-' :: (flagChars ++ [c])⟩ :: tokens)) hf hfind hargs rfl,
        if_pos (show (List.isEmpty [] : Bool) = true from rfl), h1]
      rfl
    have hdrop0 : (flagChars.map (fun x => (⟨['-', x]⟩ : String)) ++ ⟨['-', c]⟩ :: tokens).drop 0 =
        flagChars.map (fun x => (⟨['-', x]⟩ : String)) ++ ⟨['-', c]⟩ :: tokens := rfl
    have hB1 := runShortTokens_flags env optDefs flagChars 1
      (flagChars.map (fun x => (⟨['-', x]⟩ : String)) ++ ⟨['-', c]⟩ :: tokens)
      (⟨['-', c]⟩ :: tokens) [] r 0 hf hdrop0
    rw [Nat.zero_add] at hB1
    have hcurk : (⟨flagChars.map (fun x => (⟨['-', x]⟩ : String)) ++ ⟨['-', c]⟩ :: tokens,
        flagChars.length, ([] : List (Nat × List String))⟩ : ArgTokenStream).current =
        some ⟨['-', c]⟩ := by
      show (flagChars.map (fun x => (⟨['-', x]⟩ : String)) ++ ⟨['-', c]⟩ :: tokens).get?
        flagChars.length = some ⟨['-', c]⟩
      rw [show flagChars.length = (flagChars.map (fun x => (⟨['-', x]⟩ : String))).length from
        (List.length_map _ _).symm]
      rw [List.get?_append_right (Nat.le_refl _)]
      simp
    have hck : (⟨flagChars.map (fun x => (⟨['-', x]⟩ : String)) ++ ⟨['-', c]⟩ :: tokens,
        flagChars.length, ([] : List (Nat × List String))⟩ : ArgTokenStream).consume =
        ⟨flagChars.map (fun x => (⟨['-', x]⟩ : String)) ++ ⟨['-', c]⟩ :: tokens,
          flagChars.length + 1, []⟩ := by
      unfold ArgTokenStream.consume
      rw [if_pos (by simp only [List.length_append, List.length_map, List.length_cons]; omega)]
    have hlast : parseShortOption env optDefs (bumpFlags optDefs r flagChars)
        ⟨flagChars.map (fun x => (⟨['-', x]⟩ : String)) ++ ⟨['-', c]⟩ :: tokens,
          flagChars.length, []⟩ =
        parseLooseArgs env optDef.args
          (bumpCounter (bumpFlags optDefs r flagChars) optDef.id) false ("-" ++ String.mk [c])
          ⟨flagChars.map (fun x => (⟨['-', x]⟩ : String)) ++ ⟨['-', c]⟩ :: tokens,
            flagChars.length + 1, []⟩ := by
      rw [parseShortOption_cluster env optDefs (bumpFlags optDefs r flagChars) [] c [] optDef _
        (fun x hx => absurd hx (List.not_mem_nil x)) hfind hargs hcurk,
        if_pos (show (List.isEmpty [] : Bool) = true from rfl), hck]
      rfl
    have hrem : remOf ⟨flagChars.map (fun x => (⟨['-', x]⟩ : String)) ++ ⟨['-', c]⟩ :: tokens,
        flagChars.length + 1, []⟩ = tokens := by
      show (flagChars.map (fun x => (⟨['-', x]⟩ : String)) ++ ⟨['-', c]⟩ :: tokens).drop
        (flagChars.length + 1) = tokens
      rw [show flagChars.length + 1 = (flagChars.map (fun x => (⟨['-', x]⟩ : String))).length + 1
        from by simp]
      rw [List.drop_append]
      rfl
    have hWA : WFStream ⟨⟨'-' :: (flagChars ++ [c])⟩ :: tokens, 1, []⟩ :=
      ⟨by simp only [List.length_cons]; omega, by intro q hq; cases hq⟩
    have hWB : WFStream ⟨flagChars.map (fun x => (⟨['-', x]⟩ : String)) ++ ⟨['-', c]⟩ :: tokens,
        flagChars.length + 1, []⟩ :=
      ⟨by simp only [List.length_append, List.length_map, List.length_cons]; omega,
       by intro q hq; cases hq⟩
    rw [hA, show mkStream (flagChars.map (fun x => (⟨['-', x]⟩ : String)) ++ ⟨['-', c]⟩ :: tokens) =
      (⟨flagChars.map (fun x => (⟨['-', x]⟩ : String)) ++ ⟨['-', c]⟩ :: tokens, 0, []⟩ :
        ArgTokenStream) from rfl, hB1, runShortTokens_one, hlast]
    exact parseLooseArgs_equiv env henv optDef.args
      (bumpCounter (bumpFlags optDefs r flagChars) optDef.id) false ("-" ++ String.mk [c])
      _ _ ⟨hWA, hWB, by rw [hrem]; rfl, rfl⟩

theorem parseShortOption_cluster_law_witness :
    (parseShortOption testEnv optDefsClus [] (mkStream ["-abc5", "9"]) =
      parseLooseArgs testEnv [⟨"cv", 0, false, .undef⟩]
        (bumpCounter (bumpFlags optDefsClus [] ['a', 'b']) "c") true "-c"
        ⟨["-abc5", "5", "9"], 1, []⟩) ∧
    MEquiv
      (parseShortOption testEnv optDefsClus [] (mkStream ["-abc", "9"]))
      (runShortTokens testEnv optDefsClus 3 [] (mkStream ["-a", "-b", "-c", "9"])) :=
  parseShortOption_cluster_law testEnv envSuffixInv_testEnv optDefsClus [] ['a', 'b'] 'c'
    ['5'] ⟨"c", [], ['c'], [⟨"cv", 0, false, .undef⟩]⟩ ["9"]
    (by
      intro x hx
      rcases List.mem_cons.mp hx with h | h
      · subst h
        exact ⟨⟨"a", [], ['a'], []⟩, rfl, rfl⟩
      · rcases List.mem_cons.mp h with h2 | h2
        · subst h2
          exact ⟨⟨"b", [], ['b'], []⟩, rfl, rfl⟩
        · exact absurd h2 (List.not_mem_nil x))
    rfl rfl (by decide)
